import Mathlib

set_option autoImplicit false

/-!
Shallow embedding of `src/json_analysis.py`: the parse-node hierarchy
(`BaseParse` / `ValueParse` / `ListParse` / `DictParse` / `KeyValueParse`),
classification of decoded JSON values, the merge engine, and the report
projection (`vars`, `flat_vars`, `brief_vars`).  Python exceptions are
modelled by `Option` (`none` = the call raises).
-/

namespace JsonAnalysis

/-- Module-level debug flag; `DEBUG = False` in the source. -/
def DEBUG : Bool := false

/-- The `_meta` record: `$count` and `$count_falsy`. -/
structure Meta where
  count : Nat
  count_falsy : Nat
deriving DecidableEq, Repr

/-- The five scalar kinds, i.e. the concrete `ValueParse` subclasses
(`BoolParse`, `IntParse`, `FloatParse`, `StrParse`, `NoneParse`). -/
inductive SKind where
  | bool
  | int
  | float
  | str
  | null
deriving DecidableEq, Repr

/-- A raw Python scalar as stored in `ValueParse._parse`.  Python floats are
modelled by rationals (their ordering on the values the tool sees). -/
inductive Scalar where
  | b (x : Bool)
  | i (x : Int)
  | f (x : Rat)
  | s (x : String)
  | nil
deriving DecidableEq, Repr

/-- A decoded Python value as handed to `BaseParse(value)`.  `other` stands
for a value whose kind the classifier does not recognize. -/
inductive JVal where
  | boolean (b : Bool)
  | int (n : Int)
  | float (q : Rat)
  | str (s : String)
  | null
  | list (xs : List JVal)
  | dict (fs : List (String × JVal))
  | other (tag : String)

/-- Python truthiness of a decoded value, as used by `_set_meta`. -/
def truthy : JVal → Bool
  | .boolean b => b
  | .int n => n != 0
  | .float q => q != 0
  | .str s => s != ""
  | .null => false
  | .list xs => !xs.isEmpty
  | .dict fs => !fs.isEmpty
  | .other _ => true

/-- `BaseParse._set_meta`: count 1; count_falsy 1 iff the value is falsy. -/
def set_meta (value : JVal) : Meta :=
  { count := 1, count_falsy := if truthy value then 0 else 1 }

/-- Python truthiness of a stored scalar (the `if self._parse` test). -/
def struthy : Scalar → Bool
  | .b x => x
  | .i x => x != 0
  | .f x => x != 0
  | .s x => x != ""
  | .nil => false

/-- Numeric view of a scalar for Python comparison (`bool` counts as 0/1). -/
def numView : Scalar → Option Rat
  | .b x => some (if x then 1 else 0)
  | .i x => some (x : Rat)
  | .f x => some x
  | .s _ => none
  | .nil => none

/-- Python `a > b` on scalars: defined on pairs of numbers and pairs of
strings; anything else raises `TypeError` (modelled by `none`). -/
def pyGT (a b : Scalar) : Option Bool :=
  match numView a, numView b with
  | some x, some y => some (decide (y < x))
  | _, _ =>
    match a, b with
    | .s x, .s y => some (decide (y < x))
    | _, _ => none

mutual

/-- A parse node: a `ValueParse` of some concrete kind, a `ListParse`, or a
`DictParse`. -/
inductive Parse where
  | value (kind : SKind) (meta : Meta) (pval : Scalar)
  | list (meta : Meta) (children : List Parse)
  | dict (meta : Meta) (fields : List KeyValueParse)

/-- A `KeyValueParse`: field name (`_lhs`), metadata, and child nodes. -/
inductive KeyValueParse where
  | mk (lhs : String) (meta : Meta) (children : List Parse)

end

/-- The field name (`_lhs`, returned by `KeyValueParse.get_type`). -/
def KeyValueParse.lhs : KeyValueParse → String
  | .mk l _ _ => l

/-- The metadata of a `KeyValueParse`. -/
def KeyValueParse.kmeta : KeyValueParse → Meta
  | .mk _ m _ => m

/-- The child nodes of a `KeyValueParse` (its `_parse` list). -/
def KeyValueParse.children : KeyValueParse → List Parse
  | .mk _ _ cs => cs

/-- The metadata of a node. -/
def Parse.meta : Parse → Meta
  | .value _ m _ => m
  | .list m _ => m
  | .dict m _ => m

/-- The `_parse` children of a node (`[]` for scalar nodes). -/
def Parse.children : Parse → List Parse
  | .value _ _ _ => []
  | .list _ cs => cs
  | .dict _ _ => []

/-- The concrete Python class of a node, which `merge_list` uses as its
default key (`comp = type`). -/
inductive Tag where
  | bool
  | int
  | float
  | str
  | null
  | list
  | dict
deriving DecidableEq, Repr

/-- Class of a `ValueParse` subclass. -/
def kindTag : SKind → Tag
  | .bool => .bool
  | .int => .int
  | .float => .float
  | .str => .str
  | .null => .null

/-- `type(o)` for a parse node. -/
def tagOf : Parse → Tag
  | .value k _ _ => kindTag k
  | .list _ _ => .list
  | .dict _ _ => .dict

/-- `get_type`: the kind-tag string used as the children-map key in `vars`
and as the field key in serialized reports. -/
def get_type : Parse → String
  | .value .bool _ _ => "$bool"
  | .value .int _ _ => "$int"
  | .value .float _ _ => "$float"
  | .value .str _ _ => "$str"
  | .value .null _ _ => "$none"
  | .list _ _ => "$list"
  | .dict _ _ => "$dict"

/-- `BaseParse._merge_meta`: strictly additive on both counters. -/
def merge_meta (m other : Meta) : Meta :=
  { count := m.count + other.count
    count_falsy := m.count_falsy + other.count_falsy }

/-- One `dict_[comp(item)] = item` step of `list_to_dict` (keyed by class):
overwrite in place, or append a fresh key. -/
def upsert (p : Parse) : List Parse → List Parse
  | [] => [p]
  | q :: rest => if tagOf q = tagOf p then p :: rest else q :: upsert p rest

/-- `list_to_dict(list_, comp=type)` on parse-node children. -/
def list_to_dict (l : List Parse) : List Parse :=
  l.foldl (fun d p => upsert p d) []

/-- One `dict_[comp(item)] = item` step keyed by `get_type()` (field name). -/
def kvUpsert (kv : KeyValueParse) : List KeyValueParse → List KeyValueParse
  | [] => [kv]
  | q :: rest => if q.lhs = kv.lhs then kv :: rest else q :: kvUpsert kv rest

/-- `list_to_dict(list_, comp=lambda o: o.get_type())` on `KeyValueParse`s. -/
def kv_to_dict (l : List KeyValueParse) : List KeyValueParse :=
  l.foldl (fun d kv => kvUpsert kv d) []

/-- Dict lookup by class key. -/
def findTag (t : Tag) (l : List Parse) : Option Parse :=
  l.find? (fun p => tagOf p == t)

/-- Dict lookup by field-name key. -/
def findLhs (n : String) (l : List KeyValueParse) : Option KeyValueParse :=
  l.find? (fun kv => kv.lhs == n)

theorem parse_sizeOf_pos (p : Parse) : 0 < sizeOf p := by
  cases p <;> simp_arith

theorem kv_sizeOf_pos (kv : KeyValueParse) : 0 < sizeOf kv := by
  cases kv
  simp_arith

theorem parse_list_sizeOf_pos (l : List Parse) : 1 ≤ sizeOf l := by
  cases l <;> simp_arith

theorem upsert_sizeOf (p : Parse) (d : List Parse) :
    sizeOf (upsert p d) ≤ sizeOf d + 1 + sizeOf p := by
  induction d with
  | nil => simp [upsert]; omega
  | cons q rest ih =>
    by_cases h : tagOf q = tagOf p
    · simp [upsert, h]
      have := parse_sizeOf_pos q
      omega
    · simp [upsert, h]
      omega

theorem fold_upsert_sizeOf (l : List Parse) :
    ∀ d : List Parse,
      sizeOf (List.foldl (fun d p => upsert p d) d l) + 1 ≤ sizeOf d + sizeOf l := by
  induction l with
  | nil => intro d; simp
  | cons p rest ih =>
    intro d
    have h1 := ih (upsert p d)
    have h2 := upsert_sizeOf p d
    simp only [List.foldl_cons]
    simp only [List.cons.sizeOf_spec]
    omega

theorem list_to_dict_sizeOf (l : List Parse) :
    sizeOf (list_to_dict l) ≤ sizeOf l := by
  have h := fold_upsert_sizeOf l []
  simp only [List.nil.sizeOf_spec] at h
  simp only [list_to_dict]
  omega

theorem kvUpsert_sizeOf (kv : KeyValueParse) (d : List KeyValueParse) :
    sizeOf (kvUpsert kv d) ≤ sizeOf d + 1 + sizeOf kv := by
  induction d with
  | nil => simp [kvUpsert]; omega
  | cons q rest ih =>
    by_cases h : q.lhs = kv.lhs
    · simp [kvUpsert, h]
      have := kv_sizeOf_pos q
      omega
    · simp [kvUpsert, h]
      omega

theorem fold_kvUpsert_sizeOf (l : List KeyValueParse) :
    ∀ d : List KeyValueParse,
      sizeOf (List.foldl (fun d kv => kvUpsert kv d) d l) + 1 ≤ sizeOf d + sizeOf l := by
  induction l with
  | nil => intro d; simp
  | cons kv rest ih =>
    intro d
    have h1 := ih (kvUpsert kv d)
    have h2 := kvUpsert_sizeOf kv d
    simp only [List.foldl_cons]
    simp only [List.cons.sizeOf_spec]
    omega

theorem kv_to_dict_sizeOf (l : List KeyValueParse) :
    sizeOf (kv_to_dict l) ≤ sizeOf l := by
  have h := fold_kvUpsert_sizeOf l []
  simp only [List.nil.sizeOf_spec] at h
  simp only [kv_to_dict]
  omega

theorem findTag_sizeOf {t : Tag} {l : List Parse} {p : Parse}
    (h : findTag t l = some p) : sizeOf p < sizeOf l := by
  have hm : p ∈ l := List.mem_of_find?_eq_some h
  exact List.sizeOf_lt_of_mem hm

theorem findLhs_sizeOf {n : String} {l : List KeyValueParse} {kv : KeyValueParse}
    (h : findLhs n l = some kv) : sizeOf kv < sizeOf l := by
  have hm : kv ∈ l := List.mem_of_find?_eq_some h
  exact List.sizeOf_lt_of_mem hm

mutual

/-- `BaseParse.merge` (under `DEBUG`'s source value `False` the
`check_same_type` wrapper is inert): `_merge_meta` then `_merge_parse`,
dispatched on the concrete class of `self`.  `none` models an exception. -/
def merge (a b : Parse) : Option Parse :=
  if DEBUG ∧ ¬tagOf a = tagOf b then none
  else
    match a, b with
    | .value k m v, .value _ m' v' =>
      match k with
      | .int =>
        (pyGT v v').map (fun gt => Parse.value k (merge_meta m m') (if gt then v else v'))
      | .float =>
        (pyGT v v').map (fun gt => Parse.value k (merge_meta m m') (if gt then v else v'))
      | _ => some (Parse.value k (merge_meta m m') (if struthy v then v else v'))
    | .list m cs, .list m' cs' =>
      (mergeChildren (list_to_dict cs) (list_to_dict cs')).map
        (fun res => Parse.list (merge_meta m m') res)
    | .dict m fs, .dict m' fs' =>
      (mergeFields (kv_to_dict fs) (kv_to_dict fs')).map
        (fun res => Parse.dict (merge_meta m m') res)
    | _, _ => none
termination_by 2 * sizeOf a
decreasing_by
  · simp_wf
    have h := list_to_dict_sizeOf cs
    omega
  · simp_wf
    have h := kv_to_dict_sizeOf fs
    omega

/-- `merge_list` / `merge_dict` on children keyed by class: merge the keys of
`dt` (recursing on shared ones), then append `dother`'s new keys. -/
def mergeChildren (dt dother : List Parse) : Option (List Parse) :=
  (mergeShared dt dother).map
    (fun left => left ++ dother.filter (fun o => (findTag (tagOf o) dt).isNone))
termination_by 2 * sizeOf dt + 1
decreasing_by
  all_goals simp_wf

/-- The shared-key half of `merge_dict`: for each entry of `dt`, merge with
the same-key entry of `dother` when present (`ListParse._merge_parse_cb`). -/
def mergeShared (dt dother : List Parse) : Option (List Parse) :=
  match dt with
  | [] => some []
  | p :: rest =>
    match findTag (tagOf p) dother with
    | some o => (merge p o).bind (fun p2 => (mergeShared rest dother).map (fun r => p2 :: r))
    | none => (mergeShared rest dother).map (fun r => p :: r)
termination_by 2 * sizeOf dt
decreasing_by
  all_goals simp_wf
  all_goals omega

/-- `merge_list` / `merge_dict` on `KeyValueParse`s keyed by field name. -/
def mergeFields (ft fother : List KeyValueParse) : Option (List KeyValueParse) :=
  (mergeKVShared ft fother).map
    (fun left => left ++ fother.filter (fun o => (findLhs o.lhs ft).isNone))
termination_by 2 * sizeOf ft + 1
decreasing_by
  all_goals simp_wf

/-- Shared-key half of `merge_dict` on `KeyValueParse`s
(`DictParse._merge_parse_cb`). -/
def mergeKVShared (ft fother : List KeyValueParse) : Option (List KeyValueParse) :=
  match ft with
  | [] => some []
  | kv :: rest =>
    match findLhs kv.lhs fother with
    | some o => (mergeKV kv o).bind (fun kv2 => (mergeKVShared rest fother).map (fun r => kv2 :: r))
    | none => (mergeKVShared rest fother).map (fun r => kv :: r)
termination_by 2 * sizeOf ft
decreasing_by
  all_goals simp_wf
  all_goals omega

/-- `KeyValueParse.merge` (inherited `BaseParse.merge`): sum metadata and
merge the children lists by class. -/
def mergeKV (a b : KeyValueParse) : Option KeyValueParse :=
  match a, b with
  | .mk l m kids, .mk _ m' kids' =>
    (mergeChildren (list_to_dict kids) (list_to_dict kids')).map
      (fun res => KeyValueParse.mk l (merge_meta m m') res)
termination_by 2 * sizeOf a
decreasing_by
  simp_wf
  have h := list_to_dict_sizeOf kids
  omega

end

theorem jval_sizeOf_pos (v : JVal) : 0 < sizeOf v := by
  cases v <;> simp_arith

theorem jval_list_sizeOf_pos (l : List JVal) : 1 ≤ sizeOf l := by
  cases l <;> simp_arith

mutual

/-- `BaseParse(value)`: dispatch on the kind of the decoded value and build
the matching fresh node (`__new__` plus `__init__`).  `none` models a raised
exception; in particular an unrecognized kind raises
`ValueError("invalid type - ...")` in `ValueParse.__new__`. -/
def classify : JVal → Option Parse
  | .boolean b => some (Parse.value .bool (set_meta (.boolean b)) (.b b))
  | .int n => some (Parse.value .int (set_meta (.int n)) (.i n))
  | .float q => some (Parse.value .float (set_meta (.float q)) (.f q))
  | .str s => some (Parse.value .str (set_meta (.str s)) (.s s))
  | .null => some (Parse.value .null (set_meta .null) .nil)
  | .other _ => none
  | .dict fs =>
    (classifyFields fs).map (fun kvs => Parse.dict (set_meta (.dict fs)) kvs)
  | .list xs =>
    match xs with
    | [] => some (Parse.list (set_meta (.list [])) [])
    | x :: rest =>
      (classify x).bind (fun p =>
        classifyFold (Parse.list (set_meta (.list (x :: rest))) [p]) rest)
termination_by v => 2 * sizeOf v

/-- The loop of `ListParse._set_parse` past the first element: wrap each item
as `ListParse([item])` and `merge` it into the accumulator. -/
def classifyFold (acc : Parse) : List JVal → Option Parse
  | [] => some acc
  | item :: rest =>
    (classify (.list [item])).bind (fun ip =>
      (merge acc ip).bind (fun acc2 => classifyFold acc2 rest))
termination_by l => 2 * sizeOf l + 3
decreasing_by
  all_goals simp_wf
  all_goals first
    | omega
    | (have h := jval_list_sizeOf_pos rest; omega)

/-- `DictParse._set_parse`: one `KeyValueParse(lhs, rhs)` per field, each
carrying `_set_meta(rhs)` and the single child `BaseParse(rhs)`. -/
def classifyFields : List (String × JVal) → Option (List KeyValueParse)
  | [] => some []
  | (k, v) :: rest =>
    (classify v).bind (fun p =>
      (classifyFields rest).map (fun kvs => KeyValueParse.mk k (set_meta v) [p] :: kvs))
termination_by l => 2 * sizeOf l

end

/-- Every successful `merge` gives the node the summed metadata. -/
theorem merge_meta_add {a b ab : Parse} (h : merge a b = some ab) :
    ab.meta = merge_meta a.meta b.meta := by
  unfold merge at h
  split at h
  · exact Option.noConfusion h
  · split at h
    · split at h
      · obtain ⟨gt, -, rfl⟩ := Option.map_eq_some'.mp h
        rfl
      · obtain ⟨gt, -, rfl⟩ := Option.map_eq_some'.mp h
        rfl
      · injection h with h2
        subst h2
        rfl
    · obtain ⟨res, -, rfl⟩ := Option.map_eq_some'.mp h
      rfl
    · obtain ⟨res, -, rfl⟩ := Option.map_eq_some'.mp h
      rfl
    · exact Option.noConfusion h

/-- `IntParse._merge_parse`: keep the larger of the two integers. -/
theorem merge_value_int (m m' : Meta) (x y : Int) :
    merge (Parse.value .int m (.i x)) (Parse.value .int m' (.i y)) =
      some (Parse.value .int (merge_meta m m') (.i (if y < x then x else y))) := by
  by_cases h : y < x <;>
    simp [merge, DEBUG, pyGT, numView, h]

/-- `FloatParse._merge_parse`: keep the larger of the two floats. -/
theorem merge_value_float (m m' : Meta) (x y : Rat) :
    merge (Parse.value .float m (.f x)) (Parse.value .float m' (.f y)) =
      some (Parse.value .float (merge_meta m m') (.f (if y < x then x else y))) := by
  by_cases h : y < x <;>
    simp [merge, DEBUG, pyGT, numView, h]

/-- `ValueParse._merge_parse` on same-kind bool nodes. -/
theorem merge_value_bool (m m' : Meta) (x y : Bool) :
    merge (Parse.value .bool m (.b x)) (Parse.value .bool m' (.b y)) =
      some (Parse.value .bool (merge_meta m m') (.b (x || y))) := by
  cases x <;> simp [merge, DEBUG, struthy]

/-- `ValueParse._merge_parse` on same-kind string nodes. -/
theorem merge_value_str (m m' : Meta) (x y : String) :
    merge (Parse.value .str m (.s x)) (Parse.value .str m' (.s y)) =
      some (Parse.value .str (merge_meta m m') (if x = "" then .s y else .s x)) := by
  by_cases h : x = "" <;>
    simp [merge, DEBUG, struthy, h]

/-- `ValueParse._merge_parse` on same-kind null nodes. -/
theorem merge_value_null (m m' : Meta) :
    merge (Parse.value .null m .nil) (Parse.value .null m' .nil) =
      some (Parse.value .null (merge_meta m m') .nil) := by
  simp [merge, DEBUG, struthy]

/-- C3: merging two scalar nodes of the same numeric kind (`integer` or
`float`) leaves the representative value equal to the maximum of the two
values, alongside the summed metadata. -/
theorem claim_C3 (m m' : Meta) :
    (∀ x y : Int,
      merge (Parse.value .int m (.i x)) (Parse.value .int m' (.i y)) =
        some (Parse.value .int (merge_meta m m') (.i (max x y)))) ∧
    (∀ x y : Rat,
      merge (Parse.value .float m (.f x)) (Parse.value .float m' (.f y)) =
        some (Parse.value .float (merge_meta m m') (.f (max x y)))) := by
  constructor
  · intro x y
    rw [merge_value_int]
    by_cases h : y < x
    · rw [if_pos h, max_eq_left h.le]
    · rw [if_neg h, max_eq_right (not_lt.mp h)]
  · intro x y
    rw [merge_value_float]
    by_cases h : y < x
    · rw [if_pos h, max_eq_left h.le]
    · rw [if_neg h, max_eq_right (not_lt.mp h)]

/-- C4: merging two scalar nodes of the same kind among boolean, string and
null keeps the first node's value when it is truthy and otherwise takes the
second node's value (`true || y`; a non-empty string; `None` stays `None`). -/
theorem claim_C4 (m m' : Meta) :
    (∀ x y : Bool,
      merge (Parse.value .bool m (.b x)) (Parse.value .bool m' (.b y)) =
        some (Parse.value .bool (merge_meta m m') (.b (if x then x else y)))) ∧
    (∀ x y : String,
      merge (Parse.value .str m (.s x)) (Parse.value .str m' (.s y)) =
        some (Parse.value .str (merge_meta m m') (if x ≠ "" then .s x else .s y))) ∧
    (merge (Parse.value .null m .nil) (Parse.value .null m' .nil) =
      some (Parse.value .null (merge_meta m m') .nil)) := by
  refine ⟨fun x y => ?_, fun x y => ?_, merge_value_null m m'⟩
  · rw [merge_value_bool]
    cases x <;> simp
  · rw [merge_value_str]
    by_cases h : x = "" <;> simp [h]

/-- C5: metadata merge is strictly additive, hence associative and
commutative on both counters. -/
theorem claim_C5 :
    (∀ a b ab : Parse, merge a b = some ab →
      ab.meta.count = a.meta.count + b.meta.count ∧
      ab.meta.count_falsy = a.meta.count_falsy + b.meta.count_falsy) ∧
    (∀ a b c ab x bc y : Parse,
      merge a b = some ab → merge ab c = some x →
      merge b c = some bc → merge a bc = some y →
      x.meta.count = y.meta.count ∧ x.meta.count_falsy = y.meta.count_falsy) ∧
    (∀ a b ab ba : Parse, merge a b = some ab → merge b a = some ba →
      ab.meta.count = ba.meta.count ∧ ab.meta.count_falsy = ba.meta.count_falsy) := by
  refine ⟨?_, ?_, ?_⟩
  · intro a b ab h
    rw [merge_meta_add h]
    exact ⟨rfl, rfl⟩
  · intro a b c ab x bc y h1 h2 h3 h4
    rw [merge_meta_add h2, merge_meta_add h1, merge_meta_add h4, merge_meta_add h3]
    simp [merge_meta]
    omega
  · intro a b ab ba h1 h2
    rw [merge_meta_add h1, merge_meta_add h2]
    simp [merge_meta]
    omega

/-- Witness for C5: additivity at two concrete integer nodes. -/
theorem claim_C5_witness :
    (Parse.value SKind.int (Meta.mk 3 1) (Scalar.i 2)).meta.count =
      (Parse.value SKind.int (Meta.mk 1 0) (Scalar.i 1)).meta.count +
      (Parse.value SKind.int (Meta.mk 2 1) (Scalar.i 2)).meta.count ∧
    (Parse.value SKind.int (Meta.mk 3 1) (Scalar.i 2)).meta.count_falsy =
      (Parse.value SKind.int (Meta.mk 1 0) (Scalar.i 1)).meta.count_falsy +
      (Parse.value SKind.int (Meta.mk 2 1) (Scalar.i 2)).meta.count_falsy := by
  apply claim_C5.1
  rw [merge_value_int]
  norm_num [merge_meta]

/-- C6: classifying a boolean yields a `BoolParse` (kind-tag `$bool`), never
an `IntParse`: the boolean test precedes the integer test. -/
theorem claim_C6 (b : Bool) :
    classify (JVal.boolean b) =
      some (Parse.value .bool (set_meta (.boolean b)) (.b b)) ∧
    ∀ p, classify (JVal.boolean b) = some p →
      get_type p = "$bool" ∧ get_type p ≠ "$int" := by
  refine ⟨by simp [classify], ?_⟩
  intro p hp
  simp [classify] at hp
  subst hp
  have hg : get_type (Parse.value .bool (set_meta (JVal.boolean b)) (.b b)) = "$bool" := rfl
  rw [hg]
  exact ⟨rfl, by decide⟩

/-- Witness for C6 at the concrete input `True`. -/
theorem claim_C6_witness :
    get_type (Parse.value .bool (set_meta (JVal.boolean true)) (.b true)) = "$bool" ∧
    get_type (Parse.value .bool (set_meta (JVal.boolean true)) (.b true)) ≠ "$int" :=
  (claim_C6 true).2 _ (claim_C6 true).1

/-- C7 counterexample: the node classified from the null value carries the
kind-tag `$none`, not `null` — the claimed tag set names the wrong tag. -/
theorem counterexample_C7 :
    (classify JVal.null).map get_type = some "$none" ∧ "$none" ≠ "$null" := by
  exact ⟨by simp [classify]; rfl, by decide⟩

/-- C7 (amended): every node's kind-tag is drawn from
`{bool, int, float, str, none, list, dict}` (source strings `$bool` ...
`$none` ... `$dict`), and the node classified from null carries `$none`. -/
theorem claim_C7 :
    (∀ p : Parse, get_type p ∈
      (["$bool", "$int", "$float", "$str", "$none", "$list", "$dict"] : List String)) ∧
    (classify JVal.null).map get_type = some "$none" := by
  constructor
  · intro p
    cases p with
    | value k m v => cases k <;> simp [get_type]
    | list m cs => simp [get_type]
    | dict m fs => simp [get_type]
  · simp [classify]
    rfl

/-- C10: with `DEBUG = False`, `merge` checks nothing at entry: two scalar
nodes whose kinds are drawn from boolean/string/null merge successfully and
sum their metadata even when the kinds differ. -/
theorem claim_C10 (k k' : SKind) (m m' : Meta) (v v' : Scalar)
    (hk : k = .bool ∨ k = .str ∨ k = .null)
    (_hk' : k' = .bool ∨ k' = .str ∨ k' = .null) :
    DEBUG = false ∧
    ∃ c, merge (Parse.value k m v) (Parse.value k' m' v') = some c ∧
      c.meta = merge_meta m m' := by
  refine ⟨rfl, Parse.value k (merge_meta m m') (if struthy v then v else v'), ?_, rfl⟩
  rcases hk with rfl | rfl | rfl <;>
    simp [merge, DEBUG]

/-- Witness for C10: a `BoolParse` merged with a `StrParse` (differing
kinds) succeeds and sums the metadata. -/
theorem claim_C10_witness :
    DEBUG = false ∧
    ∃ c, merge (Parse.value .bool ⟨1, 1⟩ (.b false)) (Parse.value .str ⟨2, 0⟩ (.s "x")) =
      some c ∧ c.meta = merge_meta ⟨1, 1⟩ ⟨2, 0⟩ := by
  exact claim_C10 .bool .str ⟨1, 1⟩ ⟨2, 0⟩ (.b false) (.s "x")
    (Or.inl rfl) (Or.inr (Or.inl rfl))

/-- `ListParse._set_parse`'s loop is a left fold of
classify-singleton-then-merge. -/
theorem classifyFold_foldlM (l : List JVal) :
    ∀ acc : Parse, classifyFold acc l =
      l.foldlM (fun acc item =>
        (classify (JVal.list [item])).bind (fun w => merge acc w)) acc := by
  induction l with
  | nil => intro acc; simp [classifyFold]
  | cons item rest ih =>
    intro acc
    simp only [classifyFold, List.foldlM_cons]
    simp [Option.bind_assoc, ih]

/-- Unfolding `classify` on a non-empty list: seed with the first element,
then fold the rest through singleton-wrapped merges. -/
theorem classify_list_cons (x : JVal) (rest : List JVal) :
    classify (JVal.list (x :: rest)) =
      (classify x).bind (fun p =>
        classifyFold (Parse.list ⟨1, 0⟩ [p]) rest) := by
  simp [classify, set_meta, truthy]

/-- Unfolding `classify` on a singleton list. -/
theorem classify_list_singleton (x : JVal) :
    classify (JVal.list [x]) =
      (classify x).bind (fun p => some (Parse.list ⟨1, 0⟩ [p])) := by
  simp [classify, classifyFold, set_meta, truthy]

/-- C2: classifying a non-empty list produces the same node — in particular
the same children map — as classifying the first element's singleton list
and then merging, left to right, each remaining element wrapped as a
singleton-list observation. -/
theorem claim_C2 (x : JVal) (rest : List JVal) :
    classify (JVal.list (x :: rest)) =
      (classify (JVal.list [x])).bind (fun s =>
        rest.foldlM (fun acc item =>
          (classify (JVal.list [item])).bind (fun w => merge acc w)) s) := by
  rw [classify_list_cons, classify_list_singleton, Option.bind_assoc]
  apply congrArg
  funext p
  simp only [Option.some_bind]
  exact classifyFold_foldlM rest _

/-- A scalar payload that matches its node kind, as classification builds
them. -/
def scalarOK : SKind → Scalar → Bool
  | .bool, .b _ => true
  | .int, .i _ => true
  | .float, .f _ => true
  | .str, .s _ => true
  | .null, .nil => true
  | _, _ => false

mutual

/-- Well-kinded parse trees: every scalar node's payload matches its kind. -/
def wfP : Parse → Bool
  | .value k _ v => scalarOK k v
  | .list _ cs => wfList cs
  | .dict _ fs => wfFields fs
termination_by p => sizeOf p

/-- All nodes of a children list are well-kinded. -/
def wfList : List Parse → Bool
  | [] => true
  | p :: rest => wfP p && wfList rest
termination_by l => sizeOf l

/-- All `KeyValueParse` children lists are well-kinded. -/
def wfFields : List KeyValueParse → Bool
  | [] => true
  | .mk _ _ kids :: rest => wfList kids && wfFields rest
termination_by l => sizeOf l

end

mutual

/-- A decoded value all of whose parts are of recognized kinds. -/
def valid : JVal → Bool
  | .boolean _ => true
  | .int _ => true
  | .float _ => true
  | .str _ => true
  | .null => true
  | .other _ => false
  | .list xs => validList xs
  | .dict fs => validFields fs
termination_by v => sizeOf v

/-- All elements recognized. -/
def validList : List JVal → Bool
  | [] => true
  | x :: rest => valid x && validList rest
termination_by l => sizeOf l

/-- All field values recognized. -/
def validFields : List (String × JVal) → Bool
  | [] => true
  | (_, v) :: rest => valid v && validFields rest
termination_by l => sizeOf l

end

theorem wfList_iff (l : List Parse) :
    wfList l = true ↔ ∀ p ∈ l, wfP p = true := by
  induction l with
  | nil => simp [wfList]
  | cons p rest ih => simp [wfList, ih]

theorem wfFields_iff (l : List KeyValueParse) :
    wfFields l = true ↔ ∀ kv ∈ l, wfList kv.children = true := by
  induction l with
  | nil => simp [wfFields]
  | cons kv rest ih =>
    cases kv with
    | mk n m kids => simp [wfFields, ih, KeyValueParse.children]

theorem validList_iff (l : List JVal) :
    validList l = true ↔ ∀ v ∈ l, valid v = true := by
  induction l with
  | nil => simp [validList]
  | cons x rest ih => simp [validList, ih]

theorem validFields_iff (l : List (String × JVal)) :
    validFields l = true ↔ ∀ e ∈ l, valid e.2 = true := by
  induction l with
  | nil => simp [validFields]
  | cons e rest ih =>
    cases e with
    | mk k v => simp [validFields, ih]

theorem mem_upsert {x p : Parse} {d : List Parse} (h : x ∈ upsert p d) :
    x = p ∨ x ∈ d := by
  induction d with
  | nil => simp [upsert] at h; exact Or.inl h
  | cons q rest ih =>
    by_cases hq : tagOf q = tagOf p
    · simp [upsert, hq] at h
      rcases h with h | h
      · exact Or.inl h
      · exact Or.inr (List.mem_cons_of_mem q h)
    · simp [upsert, hq] at h
      rcases h with h | h
      · exact Or.inr (by simp [h])
      · rcases ih h with h2 | h2
        · exact Or.inl h2
        · exact Or.inr (List.mem_cons_of_mem q h2)

theorem mem_fold_upsert {x : Parse} (l : List Parse) :
    ∀ d : List Parse, x ∈ List.foldl (fun d p => upsert p d) d l → x ∈ d ∨ x ∈ l := by
  induction l with
  | nil => intro d h; exact Or.inl h
  | cons p rest ih =>
    intro d h
    simp only [List.foldl_cons] at h
    rcases ih (upsert p d) h with h2 | h2
    · rcases mem_upsert h2 with h3 | h3
      · exact Or.inr (by simp [h3])
      · exact Or.inl h3
    · exact Or.inr (List.mem_cons_of_mem p h2)

theorem mem_list_to_dict {x : Parse} {l : List Parse} (h : x ∈ list_to_dict l) :
    x ∈ l := by
  rcases mem_fold_upsert l [] h with h2 | h2
  · simp at h2
  · exact h2

theorem mem_kvUpsert {x kv : KeyValueParse} {d : List KeyValueParse}
    (h : x ∈ kvUpsert kv d) : x = kv ∨ x ∈ d := by
  induction d with
  | nil => simp [kvUpsert] at h; exact Or.inl h
  | cons q rest ih =>
    by_cases hq : q.lhs = kv.lhs
    · simp [kvUpsert, hq] at h
      rcases h with h | h
      · exact Or.inl h
      · exact Or.inr (List.mem_cons_of_mem q h)
    · simp [kvUpsert, hq] at h
      rcases h with h | h
      · exact Or.inr (by simp [h])
      · rcases ih h with h2 | h2
        · exact Or.inl h2
        · exact Or.inr (List.mem_cons_of_mem q h2)

theorem mem_fold_kvUpsert {x : KeyValueParse} (l : List KeyValueParse) :
    ∀ d : List KeyValueParse,
      x ∈ List.foldl (fun d kv => kvUpsert kv d) d l → x ∈ d ∨ x ∈ l := by
  induction l with
  | nil => intro d h; exact Or.inl h
  | cons kv rest ih =>
    intro d h
    simp only [List.foldl_cons] at h
    rcases ih (kvUpsert kv d) h with h2 | h2
    · rcases mem_kvUpsert h2 with h3 | h3
      · exact Or.inr (by simp [h3])
      · exact Or.inl h3
    · exact Or.inr (List.mem_cons_of_mem kv h2)

theorem mem_kv_to_dict {x : KeyValueParse} {l : List KeyValueParse}
    (h : x ∈ kv_to_dict l) : x ∈ l := by
  rcases mem_fold_kvUpsert l [] h with h2 | h2
  · simp at h2
  · exact h2

theorem wfList_list_to_dict {l : List Parse} (h : wfList l = true) :
    wfList (list_to_dict l) = true := by
  rw [wfList_iff] at h ⊢
  intro p hp
  exact h p (mem_list_to_dict hp)

theorem wfFields_kv_to_dict {l : List KeyValueParse} (h : wfFields l = true) :
    wfFields (kv_to_dict l) = true := by
  rw [wfFields_iff] at h ⊢
  intro kv hkv
  exact h kv (mem_kv_to_dict hkv)

theorem wfList_append {l1 l2 : List Parse} (h1 : wfList l1 = true)
    (h2 : wfList l2 = true) : wfList (l1 ++ l2) = true := by
  rw [wfList_iff] at h1 h2 ⊢
  intro p hp
  rcases List.mem_append.mp hp with h | h
  · exact h1 p h
  · exact h2 p h

theorem wfFields_append {l1 l2 : List KeyValueParse} (h1 : wfFields l1 = true)
    (h2 : wfFields l2 = true) : wfFields (l1 ++ l2) = true := by
  rw [wfFields_iff] at h1 h2 ⊢
  intro kv hkv
  rcases List.mem_append.mp hkv with h | h
  · exact h1 kv h
  · exact h2 kv h

theorem wfList_filter {l : List Parse} (f : Parse → Bool) (h : wfList l = true) :
    wfList (l.filter f) = true := by
  rw [wfList_iff] at h ⊢
  intro p hp
  exact h p (List.mem_of_mem_filter hp)

theorem wfFields_filter {l : List KeyValueParse} (f : KeyValueParse → Bool)
    (h : wfFields l = true) : wfFields (l.filter f) = true := by
  rw [wfFields_iff] at h ⊢
  intro kv hkv
  exact h kv (List.mem_of_mem_filter hkv)

theorem findTag_spec {t : Tag} {l : List Parse} {p : Parse}
    (h : findTag t l = some p) : p ∈ l ∧ tagOf p = t := by
  refine ⟨List.mem_of_find?_eq_some h, ?_⟩
  have := List.find?_some h
  simpa using this

theorem findLhs_spec {n : String} {l : List KeyValueParse} {kv : KeyValueParse}
    (h : findLhs n l = some kv) : kv ∈ l ∧ kv.lhs = n := by
  refine ⟨List.mem_of_find?_eq_some h, ?_⟩
  have := List.find?_some h
  simpa using this

theorem meta_sizeOf_pos (m : Meta) : 0 < sizeOf m := by
  cases m
  simp_arith

theorem kindTag_inj {k k' : SKind} (h : kindTag k = kindTag k') : k = k' := by
  cases k <;> cases k' <;> simp_all [kindTag]

theorem scalarOK_int {v : Scalar} (h : scalarOK .int v = true) : ∃ x, v = .i x := by
  cases v <;> simp_all [scalarOK]

theorem scalarOK_float {v : Scalar} (h : scalarOK .float v = true) : ∃ x, v = .f x := by
  cases v <;> simp_all [scalarOK]

/-- `ValueParse._merge_parse` (truthiness rule) for the non-numeric kinds,
for any payloads and any kind of the second node. -/
theorem merge_value_notnum {k : SKind}
    (hk : k = SKind.bool ∨ k = SKind.str ∨ k = SKind.null)
    (k' : SKind) (m m' : Meta) (v v' : Scalar) :
    merge (Parse.value k m v) (Parse.value k' m' v') =
      some (Parse.value k (merge_meta m m') (if struthy v then v else v')) := by
  rcases hk with rfl | rfl | rfl <;> simp [merge, DEBUG]

/-- Well-kinded nodes of equal class always merge successfully into a
well-kinded node of the same class. -/
theorem mergeTotal : ∀ n : Nat,
    (∀ a b : Parse, sizeOf a ≤ n → wfP a = true → wfP b = true →
      tagOf a = tagOf b →
      ∃ c, merge a b = some c ∧ wfP c = true ∧ tagOf c = tagOf a) ∧
    (∀ dt dother : List Parse, sizeOf dt ≤ n → wfList dt = true →
      wfList dother = true →
      ∃ res, mergeShared dt dother = some res ∧ wfList res = true) ∧
    (∀ ft fother : List KeyValueParse, sizeOf ft ≤ n → wfFields ft = true →
      wfFields fother = true →
      ∃ res, mergeKVShared ft fother = some res ∧ wfFields res = true) := by
  intro n
  induction n using Nat.strong_induction_on with
  | _ n IH =>
  refine ⟨?_, ?_, ?_⟩
  · intro a b hsz hwa hwb htag
    cases a with
    | value k m v =>
      cases b with
      | value k' m' v' =>
        cases k with
        | int =>
          obtain rfl : k' = SKind.int :=
            (kindTag_inj (show kindTag SKind.int = kindTag k' by
              simpa [tagOf] using htag)).symm
          obtain ⟨x, rfl⟩ := scalarOK_int (by simpa [wfP] using hwa)
          obtain ⟨y, rfl⟩ := scalarOK_int (by simpa [wfP] using hwb)
          exact ⟨_, merge_value_int m m' x y, by simp [wfP, scalarOK], rfl⟩
        | float =>
          obtain rfl : k' = SKind.float :=
            (kindTag_inj (show kindTag SKind.float = kindTag k' by
              simpa [tagOf] using htag)).symm
          obtain ⟨x, rfl⟩ := scalarOK_float (by simpa [wfP] using hwa)
          obtain ⟨y, rfl⟩ := scalarOK_float (by simpa [wfP] using hwb)
          exact ⟨_, merge_value_float m m' x y, by simp [wfP, scalarOK], rfl⟩
        | bool =>
          obtain rfl : k' = SKind.bool :=
            (kindTag_inj (show kindTag SKind.bool = kindTag k' by
              simpa [tagOf] using htag)).symm
          have hva : scalarOK SKind.bool v = true := by simpa [wfP] using hwa
          have hvb : scalarOK SKind.bool v' = true := by simpa [wfP] using hwb
          refine ⟨_, merge_value_notnum (Or.inl rfl) _ m m' v v', ?_, rfl⟩
          by_cases h : struthy v <;> simp [wfP, h, hva, hvb]
        | str =>
          obtain rfl : k' = SKind.str :=
            (kindTag_inj (show kindTag SKind.str = kindTag k' by
              simpa [tagOf] using htag)).symm
          have hva : scalarOK SKind.str v = true := by simpa [wfP] using hwa
          have hvb : scalarOK SKind.str v' = true := by simpa [wfP] using hwb
          refine ⟨_, merge_value_notnum (Or.inr (Or.inl rfl)) _ m m' v v', ?_, rfl⟩
          by_cases h : struthy v <;> simp [wfP, h, hva, hvb]
        | null =>
          obtain rfl : k' = SKind.null :=
            (kindTag_inj (show kindTag SKind.null = kindTag k' by
              simpa [tagOf] using htag)).symm
          have hva : scalarOK SKind.null v = true := by simpa [wfP] using hwa
          have hvb : scalarOK SKind.null v' = true := by simpa [wfP] using hwb
          refine ⟨_, merge_value_notnum (Or.inr (Or.inr rfl)) _ m m' v v', ?_, rfl⟩
          by_cases h : struthy v <;> simp [wfP, h, hva, hvb]
      | list m' cs' => cases k <;> simp [tagOf, kindTag] at htag
      | dict m' fs' => cases k <;> simp [tagOf, kindTag] at htag
    | list m cs =>
      cases b with
      | value k' m' v' => cases k' <;> simp [tagOf, kindTag] at htag
      | dict m' fs' => simp [tagOf] at htag
      | list m' cs' =>
        have hwcs : wfList cs = true := by simpa [wfP] using hwa
        have hwcs' : wfList cs' = true := by simpa [wfP] using hwb
        have hlt : sizeOf (list_to_dict cs) < n := by
          have h1 := list_to_dict_sizeOf cs
          have h2 := meta_sizeOf_pos m
          simp only [Parse.list.sizeOf_spec] at hsz
          omega
        obtain ⟨res, hres, hwres⟩ :=
          (IH (sizeOf (list_to_dict cs)) hlt).2.1 (list_to_dict cs)
            (list_to_dict cs') le_rfl (wfList_list_to_dict hwcs)
            (wfList_list_to_dict hwcs')
        have hmerge : merge (Parse.list m cs) (Parse.list m' cs') =
            some (Parse.list (merge_meta m m')
              (res ++ (list_to_dict cs').filter
                (fun o => (findTag (tagOf o) (list_to_dict cs)).isNone))) := by
          simp [merge, DEBUG, mergeChildren, hres]
        refine ⟨_, hmerge, ?_, rfl⟩
        simp only [wfP]
        exact wfList_append hwres (wfList_filter _ (wfList_list_to_dict hwcs'))
    | dict m fs =>
      cases b with
      | value k' m' v' => cases k' <;> simp [tagOf, kindTag] at htag
      | list m' cs' => simp [tagOf] at htag
      | dict m' fs' =>
        have hwfs : wfFields fs = true := by simpa [wfP] using hwa
        have hwfs' : wfFields fs' = true := by simpa [wfP] using hwb
        have hlt : sizeOf (kv_to_dict fs) < n := by
          have h1 := kv_to_dict_sizeOf fs
          have h2 := meta_sizeOf_pos m
          simp only [Parse.dict.sizeOf_spec] at hsz
          omega
        obtain ⟨res, hres, hwres⟩ :=
          (IH (sizeOf (kv_to_dict fs)) hlt).2.2 (kv_to_dict fs)
            (kv_to_dict fs') le_rfl (wfFields_kv_to_dict hwfs)
            (wfFields_kv_to_dict hwfs')
        have hmerge : merge (Parse.dict m fs) (Parse.dict m' fs') =
            some (Parse.dict (merge_meta m m')
              (res ++ (kv_to_dict fs').filter
                (fun o => (findLhs o.lhs (kv_to_dict fs)).isNone))) := by
          simp [merge, DEBUG, mergeFields, hres]
        refine ⟨_, hmerge, ?_, rfl⟩
        simp only [wfP]
        exact wfFields_append hwres (wfFields_filter _ (wfFields_kv_to_dict hwfs'))
  · intro dt dother hsz hwdt hwdo
    cases dt with
    | nil => exact ⟨[], by simp [mergeShared], by simp [wfList]⟩
    | cons p rest =>
      have hwp : wfP p = true := by simp [wfList] at hwdt; exact hwdt.1
      have hwrest : wfList rest = true := by simp [wfList] at hwdt; exact hwdt.2
      have hrestlt : sizeOf rest < n := by
        have := parse_sizeOf_pos p
        simp only [List.cons.sizeOf_spec] at hsz
        omega
      obtain ⟨res, hres, hwres⟩ :=
        (IH (sizeOf rest) hrestlt).2.1 rest dother le_rfl hwrest hwdo
      cases hf : findTag (tagOf p) dother with
      | none =>
        exact ⟨p :: res, by simp [mergeShared, hf, hres],
          by simp [wfList, hwp, hwres]⟩
      | some o =>
        obtain ⟨ho_mem, ho_tag⟩ := findTag_spec hf
        have hwo : wfP o = true := (wfList_iff dother).mp hwdo o ho_mem
        have hplt : sizeOf p < n := by
          have := jval_list_sizeOf_pos
          simp only [List.cons.sizeOf_spec] at hsz
          have hrp := parse_sizeOf_pos p
          omega
        obtain ⟨c, hc, hwc, -⟩ :=
          (IH (sizeOf p) hplt).1 p o le_rfl hwp hwo ho_tag.symm
        exact ⟨c :: res, by simp [mergeShared, hf, hc, hres],
          by simp [wfList, hwc, hwres]⟩
  · intro ft fother hsz hwft hwfo
    cases ft with
    | nil => exact ⟨[], by simp [mergeKVShared], by simp [wfFields]⟩
    | cons kv rest =>
      cases kv with
      | mk l mm kids =>
        have hwkids : wfList kids = true := by
          simp [wfFields] at hwft; exact hwft.1
        have hwrest : wfFields rest = true := by
          simp [wfFields] at hwft; exact hwft.2
        have hrestlt : sizeOf rest < n := by
          have := kv_sizeOf_pos (KeyValueParse.mk l mm kids)
          simp only [List.cons.sizeOf_spec] at hsz
          omega
        obtain ⟨res, hres, hwres⟩ :=
          (IH (sizeOf rest) hrestlt).2.2 rest fother le_rfl hwrest hwfo
        cases hf : findLhs (KeyValueParse.mk l mm kids).lhs fother with
        | none =>
          refine ⟨KeyValueParse.mk l mm kids :: res,
            by simp [mergeKVShared, hf, hres], ?_⟩
          simp [wfFields, hwkids, hwres]
        | some o =>
          obtain ⟨ho_mem, -⟩ := findLhs_spec hf
          have hwokids : wfList o.children = true :=
            (wfFields_iff fother).mp hwfo o ho_mem
          cases o with
          | mk l' mm' kids' =>
            have hkidslt : sizeOf (list_to_dict kids) < n := by
              have h1 := list_to_dict_sizeOf kids
              simp only [List.cons.sizeOf_spec, KeyValueParse.mk.sizeOf_spec] at hsz
              have h2 := meta_sizeOf_pos mm
              omega
            obtain ⟨cres, hcres, hwcres⟩ :=
              (IH (sizeOf (list_to_dict kids)) hkidslt).2.1 (list_to_dict kids)
                (list_to_dict kids') le_rfl (wfList_list_to_dict hwkids)
                (wfList_list_to_dict (by simpa [KeyValueParse.children] using hwokids))
            have hkv : mergeKV (KeyValueParse.mk l mm kids)
                (KeyValueParse.mk l' mm' kids') =
                some (KeyValueParse.mk l (merge_meta mm mm')
                  (cres ++ (list_to_dict kids').filter
                    (fun o => (findTag (tagOf o) (list_to_dict kids)).isNone))) := by
              simp [mergeKV, mergeChildren, hcres]
            refine ⟨KeyValueParse.mk l (merge_meta mm mm')
                (cres ++ (list_to_dict kids').filter
                  (fun o => (findTag (tagOf o) (list_to_dict kids)).isNone)) :: res,
              ?_, ?_⟩
            · simp [mergeKVShared, hf, hkv, hres]
            · simp only [wfFields]
              rw [wfList_append hwcres (wfList_filter _ (wfList_list_to_dict
                (by simpa [KeyValueParse.children] using hwokids))), hwres]
              rfl

/-- Entry form of `mergeTotal` for two nodes. -/
theorem merge_wf_some {a b : Parse} (ha : wfP a = true) (hb : wfP b = true)
    (ht : tagOf a = tagOf b) :
    ∃ c, merge a b = some c ∧ wfP c = true ∧ tagOf c = tagOf a :=
  (mergeTotal (sizeOf a)).1 a b le_rfl ha hb ht

/-- Class of the node that classification builds for a recognized value. -/
def jTag : JVal → Tag
  | .boolean _ => .bool
  | .int _ => .int
  | .float _ => .float
  | .str _ => .str
  | .null => .null
  | .list _ => .list
  | .dict _ => .dict
  | .other _ => .null

/-- The root `$count` that classification actually produces: 1 everywhere
except a list of `n ≥ 1` elements, whose construction loop merges `n - 1`
singleton observations into the node's own metadata. -/
def rootCount : JVal → Nat
  | .list xs => max 1 xs.length
  | _ => 1

/-- Folding `ListParse._set_parse`'s merge loop over well-kinded singleton
observations: one successful merge per element, each adding 1 to `$count`
and 0 to `$count_falsy`. -/
theorem classifyFold_spec (rest : List JVal)
    (hitems : ∀ item ∈ rest, ∃ ip, classify (JVal.list [item]) = some ip ∧
      wfP ip = true ∧ tagOf ip = Tag.list ∧ ip.meta = ⟨1, 0⟩) :
    ∀ acc : Parse, wfP acc = true → tagOf acc = Tag.list →
      ∃ r, classifyFold acc rest = some r ∧ wfP r = true ∧
        tagOf r = Tag.list ∧
        r.meta.count = acc.meta.count + rest.length ∧
        r.meta.count_falsy = acc.meta.count_falsy := by
  induction rest with
  | nil =>
    intro acc hw ht
    exact ⟨acc, by simp [classifyFold], hw, ht, by simp, rfl⟩
  | cons item rest ih =>
    intro acc hw ht
    obtain ⟨ip, hip, hwip, htip, hmip⟩ := hitems item (by simp)
    obtain ⟨acc2, hm, hwacc2, htacc2⟩ :=
      merge_wf_some hw hwip (ht.trans htip.symm)
    have hmeta := merge_meta_add hm
    obtain ⟨r, hr, hwr, htr, hc, hf⟩ :=
      ih (fun it hit => hitems it (by simp [hit])) acc2 hwacc2 (htacc2.trans ht)
    refine ⟨r, by simp [classifyFold, hip, hm, hr], hwr, htr, ?_, ?_⟩
    · rw [hc, hmeta]
      simp [merge_meta, hmip]
      omega
    · rw [hf, hmeta]
      simp [merge_meta, hmip]

/-- `DictParse._set_parse` succeeds and is well-kinded once every field
value classifies successfully into a well-kinded node. -/
theorem classifyFields_some (fs : List (String × JVal))
    (hvals : ∀ e ∈ fs, ∃ p, classify e.2 = some p ∧ wfP p = true) :
    ∃ kvs, classifyFields fs = some kvs ∧ wfFields kvs = true := by
  induction fs with
  | nil => exact ⟨[], by simp [classifyFields], by simp [wfFields]⟩
  | cons e rest ih =>
    cases e with
    | mk k v =>
      obtain ⟨p, hp, hwp⟩ := hvals (k, v) (by simp)
      obtain ⟨kvs, hkvs, hwkvs⟩ := ih (fun e he => hvals e (by simp [he]))
      exact ⟨KeyValueParse.mk k (set_meta v) [p] :: kvs,
        by simp [classifyFields, hp, hkvs],
        by simp [wfFields, wfList, hwp, hwkvs]⟩

/-- Classification of a recognized value always succeeds, produces a
well-kinded node of the value's class, and its root metadata is
`{count = rootCount, count_falsy = value falsy ? 1 : 0}`. -/
theorem classifySpec : ∀ n : Nat, ∀ v : JVal, sizeOf v ≤ n → valid v = true →
    ∃ p, classify v = some p ∧ wfP p = true ∧ tagOf p = jTag v ∧
      p.meta.count = rootCount v ∧
      p.meta.count_falsy = (if truthy v then 0 else 1) := by
  intro n
  induction n using Nat.strong_induction_on with
  | _ n IH =>
  intro v hsz hv
  cases v with
  | boolean b =>
    exact ⟨Parse.value SKind.bool (set_meta (JVal.boolean b)) (.b b),
      by simp [classify], by simp [wfP, scalarOK], rfl, rfl, rfl⟩
  | int i =>
    exact ⟨Parse.value SKind.int (set_meta (JVal.int i)) (.i i),
      by simp [classify], by simp [wfP, scalarOK], rfl, rfl, rfl⟩
  | float q =>
    exact ⟨Parse.value SKind.float (set_meta (JVal.float q)) (.f q),
      by simp [classify], by simp [wfP, scalarOK], rfl, rfl, rfl⟩
  | str t =>
    exact ⟨Parse.value SKind.str (set_meta (JVal.str t)) (.s t),
      by simp [classify], by simp [wfP, scalarOK], rfl, rfl, rfl⟩
  | null =>
    exact ⟨Parse.value SKind.null (set_meta JVal.null) .nil,
      by simp [classify], by simp [wfP, scalarOK], rfl, rfl, rfl⟩
  | other t => simp [valid] at hv
  | dict fs =>
    have hvf : validFields fs = true := by simpa [valid] using hv
    have hvals : ∀ e ∈ fs, ∃ p, classify e.2 = some p ∧ wfP p = true := by
      intro e he
      have hm := List.sizeOf_lt_of_mem he
      have hlt : sizeOf e.2 < n := by
        cases e with
        | mk k v2 =>
          simp only [JVal.dict.sizeOf_spec] at hsz
          simp only [Prod.mk.sizeOf_spec] at hm
          show sizeOf v2 < n
          omega
      obtain ⟨p, hp, hwp, -, -, -⟩ :=
        IH (sizeOf e.2) hlt e.2 le_rfl ((validFields_iff fs).mp hvf e he)
      exact ⟨p, hp, hwp⟩
    obtain ⟨kvs, hkvs, hwkvs⟩ := classifyFields_some fs hvals
    exact ⟨Parse.dict (set_meta (JVal.dict fs)) kvs,
      by simp [classify, hkvs], by simpa [wfP] using hwkvs, rfl, rfl, rfl⟩
  | list xs =>
    cases xs with
    | nil =>
      refine ⟨Parse.list (set_meta (JVal.list [])) [],
        by simp [classify], by simp [wfP, wfList], rfl, ?_, rfl⟩
      simp [Parse.meta, set_meta, rootCount]
    | cons x rest =>
      have hvx : valid x = true := by
        have := (validList_iff (x :: rest)).mp (by simpa [valid] using hv)
        exact this x (by simp)
      have hvrest : ∀ it ∈ rest, valid it = true := by
        have := (validList_iff (x :: rest)).mp (by simpa [valid] using hv)
        exact fun it hit => this it (by simp [hit])
      have hszlist : 2 + sizeOf x + sizeOf rest ≤ n := by
        simp only [JVal.list.sizeOf_spec, List.cons.sizeOf_spec] at hsz
        omega
      have hxlt : sizeOf x < n := by
        have := jval_list_sizeOf_pos rest
        omega
      obtain ⟨p, hp, hwp, htp, -, -⟩ := IH (sizeOf x) hxlt x le_rfl hvx
      have hitems : ∀ item ∈ rest, ∃ ip,
          classify (JVal.list [item]) = some ip ∧ wfP ip = true ∧
          tagOf ip = Tag.list ∧ ip.meta = ⟨1, 0⟩ := by
        intro item hit
        have hmem := List.sizeOf_lt_of_mem hit
        have hlt : sizeOf (JVal.list [item]) < n := by
          simp only [JVal.list.sizeOf_spec, List.cons.sizeOf_spec,
            List.nil.sizeOf_spec]
          have := jval_sizeOf_pos x
          omega
        have hvit : valid (JVal.list [item]) = true := by
          simp [valid, validList, hvrest item hit]
        obtain ⟨ip, hip, hwip, htip, hc, hf⟩ :=
          IH (sizeOf (JVal.list [item])) hlt (JVal.list [item]) le_rfl hvit
        refine ⟨ip, hip, hwip, htip, ?_⟩
        simp [rootCount] at hc
        simp [truthy] at hf
        cases hme : ip.meta with
        | mk c cf =>
          rw [hme] at hc hf
          simp_all
      obtain ⟨r, hr, hwr, htr, hc, hf⟩ :=
        classifyFold_spec rest hitems (Parse.list ⟨1, 0⟩ [p])
          (by simp [wfP, wfList, hwp]) rfl
      refine ⟨r, ?_, hwr, by simp [jTag, htr], ?_, ?_⟩
      · simp [classify_list_cons, hp, hr]
      · rw [hc]
        simp [Parse.meta, rootCount]
        omega
      · rw [hf]
        simp [Parse.meta, truthy]

/-- If `DictParse._set_parse` succeeded, every field value classified. -/
theorem classifyFields_values {fs : List (String × JVal)}
    {kvs : List KeyValueParse} (h : classifyFields fs = some kvs) :
    ∀ e ∈ fs, ∃ p, classify e.2 = some p := by
  induction fs generalizing kvs with
  | nil => intro e he; simp at he
  | cons e0 rest ih =>
    cases e0 with
    | mk k v =>
      simp only [classifyFields, Option.bind_eq_some, Option.map_eq_some'] at h
      obtain ⟨p, hp, kvs', hkvs', -⟩ := h
      intro e he
      rcases List.mem_cons.mp he with rfl | he2
      · exact ⟨p, hp⟩
      · exact ih hkvs' e he2

/-- If `ListParse._set_parse`'s loop succeeded, every later element's
singleton observation classified. -/
theorem classifyFold_items {l : List JVal} :
    ∀ {acc r : Parse}, classifyFold acc l = some r →
      ∀ item ∈ l, ∃ w, classify (JVal.list [item]) = some w := by
  induction l with
  | nil => intro acc r h item hit; simp at hit
  | cons it0 rest ih =>
    intro acc r h item hit
    simp only [classifyFold, Option.bind_eq_some] at h
    obtain ⟨w, hw, acc2, -, hrest⟩ := h
    rcases List.mem_cons.mp hit with rfl | hit2
    · exact ⟨w, hw⟩
    · exact ih hrest item hit2

/-- A value that classifies successfully is recognized all the way down. -/
theorem classify_valid : ∀ n : Nat, ∀ v : JVal, sizeOf v ≤ n →
    ∀ p, classify v = some p → valid v = true := by
  intro n
  induction n using Nat.strong_induction_on with
  | _ n IH =>
  intro v hsz p hp
  cases v with
  | boolean b => simp [valid]
  | int i => simp [valid]
  | float q => simp [valid]
  | str t => simp [valid]
  | null => simp [valid]
  | other t => simp [classify] at hp
  | dict fs =>
    simp only [classify, Option.map_eq_some'] at hp
    obtain ⟨kvs, hkvs, -⟩ := hp
    have hvals := classifyFields_values hkvs
    simp only [valid]
    rw [validFields_iff]
    intro e he
    have hm := List.sizeOf_lt_of_mem he
    have hlt : sizeOf e.2 < n := by
      cases e with
      | mk k v2 =>
        simp only [JVal.dict.sizeOf_spec] at hsz
        simp only [Prod.mk.sizeOf_spec] at hm
        show sizeOf v2 < n
        omega
    obtain ⟨q, hq⟩ := hvals e he
    exact IH (sizeOf e.2) hlt e.2 le_rfl q hq
  | list xs =>
    cases xs with
    | nil => simp [valid, validList]
    | cons x rest =>
      rw [classify_list_cons] at hp
      simp only [Option.bind_eq_some] at hp
      obtain ⟨p0, hp0, hfold⟩ := hp
      have hszlist : 2 + sizeOf x + sizeOf rest ≤ n := by
        simp only [JVal.list.sizeOf_spec, List.cons.sizeOf_spec] at hsz
        omega
      have hvx : valid x = true := by
        have hxlt : sizeOf x < n := by
          have := jval_list_sizeOf_pos rest
          omega
        exact IH (sizeOf x) hxlt x le_rfl p0 hp0
      have hitems := classifyFold_items hfold
      simp only [valid, validList]
      rw [hvx, Bool.true_and, validList_iff]
      intro it hit
      obtain ⟨w, hw⟩ := hitems it hit
      rw [classify_list_singleton] at hw
      simp only [Option.bind_eq_some] at hw
      obtain ⟨q, hq, -⟩ := hw
      have hmem := List.sizeOf_lt_of_mem hit
      have hlt : sizeOf it < n := by
        have := jval_sizeOf_pos x
        omega
      exact IH (sizeOf it) hlt it le_rfl q hq

/-- C9: classification raises `InvalidValueType` exactly when an
unrecognized kind occurs in the decoded value; on values built solely from
the seven recognized kinds it succeeds without raising. -/
theorem claim_C9 (v : JVal) :
    (∃ p, classify v = some p) ↔ valid v = true := by
  constructor
  · rintro ⟨p, hp⟩
    exact classify_valid (sizeOf v) v le_rfl p hp
  · intro hv
    obtain ⟨p, hp, -⟩ := classifySpec (sizeOf v) v le_rfl hv
    exact ⟨p, hp⟩

/-- C1 counterexample: classifying the two-element list `[1, 2]` produces a
root node with `$count = 2`, not 1 — `ListParse._set_parse` merges each
later element's singleton observation into the node's own metadata. -/
theorem counterexample_C1 :
    (classify (JVal.list [JVal.int 1, JVal.int 2])).map (fun p => p.meta.count) =
      some 2 ∧ (2 : Nat) ≠ 1 := by
  constructor
  · simp [classify, classifyFold, merge, set_meta, truthy, mergeChildren,
      mergeShared, list_to_dict, upsert, findTag, tagOf, kindTag, merge_meta,
      pyGT, numView, DEBUG, Parse.meta]
  · decide

/-- C1 (amended): classifying a recognized value yields `count_falsy = 1`
iff the value is falsy, and `count = 1` for scalars, objects and lists of at
most one element, but `count = n` for a list of `n ≥ 1` elements. -/
theorem claim_C1 (v : JVal) (hv : valid v = true) :
    ∃ p, classify v = some p ∧ p.meta.count = rootCount v ∧
      p.meta.count_falsy = (if truthy v then 0 else 1) := by
  obtain ⟨p, hp, -, -, hc, hf⟩ := classifySpec (sizeOf v) v le_rfl hv
  exact ⟨p, hp, hc, hf⟩

/-- Witness for C1 at the falsy scalar `""` and at the list `[1, 2]`. -/
theorem claim_C1_witness :
    (∃ p, classify (JVal.str "") = some p ∧
      p.meta.count = rootCount (JVal.str "") ∧
      p.meta.count_falsy = (if truthy (JVal.str "") then 0 else 1)) ∧
    (∃ p, classify (JVal.list [JVal.int 1, JVal.int 2]) = some p ∧
      p.meta.count = rootCount (JVal.list [JVal.int 1, JVal.int 2]) ∧
      p.meta.count_falsy =
        (if truthy (JVal.list [JVal.int 1, JVal.int 2]) then 0 else 1)) :=
  ⟨claim_C1 (JVal.str "") (by simp [valid]),
    claim_C1 (JVal.list [JVal.int 1, JVal.int 2])
      (by simp [valid, validList])⟩

/-- A value inside a `vars()` report: a counter, a raw scalar, or a nested
dict. -/
inductive VDoc where
  | num (n : Nat)
  | val (s : Scalar)
  | obj (entries : List (String × VDoc))

/-- Python dict assignment `d[k] = v` on an insertion-ordered dict. -/
def sUpsert (k : String) (v : VDoc) : List (String × VDoc) → List (String × VDoc)
  | [] => [(k, v)]
  | (k', v') :: rest => if k' = k then (k, v) :: rest else (k', v') :: sUpsert k v rest

mutual

/-- The entry list of a node's `vars()` dict, in the source's key order
(`ListParse` puts `$parse` first; the others put the metadata first). -/
def varsEntries : Parse → List (String × VDoc)
  | .value _ m v =>
    [("$count", .num m.count), ("$count_falsy", .num m.count_falsy),
      ("$parse", .val v)]
  | .list m cs =>
    [("$parse", VDoc.obj (childEntries cs [])),
      ("$count", .num m.count), ("$count_falsy", .num m.count_falsy)]
  | .dict m fs =>
    [("$count", .num m.count), ("$count_falsy", .num m.count_falsy),
      ("$parse", VDoc.obj (kvEntries fs []))]
termination_by p => sizeOf p

/-- `ret_parse[base_parse.get_type()] = base_parse.vars()` over a children
list. -/
def childEntries : List Parse → List (String × VDoc) → List (String × VDoc)
  | [], acc => acc
  | p :: rest, acc =>
    childEntries rest (sUpsert (get_type p) (VDoc.obj (varsEntries p)) acc)
termination_by l => sizeOf l

/-- `ret_parse[key_value_parse.get_type()] = key_value_parse.vars()`. -/
def kvEntries : List KeyValueParse → List (String × VDoc) → List (String × VDoc)
  | [], acc => acc
  | kv :: rest, acc =>
    kvEntries rest (sUpsert kv.lhs (VDoc.obj (kvVarsEntries kv)) acc)
termination_by l => sizeOf l

/-- `KeyValueParse.vars()`. -/
def kvVarsEntries : KeyValueParse → List (String × VDoc)
  | .mk _ m kids =>
    [("$count", .num m.count), ("$count_falsy", .num m.count_falsy),
      ("$parse", VDoc.obj (childEntries kids []))]
termination_by kv => sizeOf kv

end

/-- `vars()` of a node. -/
def vars (p : Parse) : VDoc := .obj (varsEntries p)

/-- The inner loop of `flat_vars` for a non-final child: insert every child
entry under the dotted key `key + "." + child_key`. -/
def childInsert (k : String) : List (String × VDoc) → List (String × VDoc) →
    List (String × VDoc)
  | [], me => me
  | (ck, cv) :: rest, me => childInsert k rest (sUpsert (k ++ "." ++ ck) cv me)

mutual

/-- `flat_vars(doc)`: flatten a nested dict, keeping final layers whole.
Returns `(me, is_final)`. -/
def flat_vars (doc : List (String × VDoc)) : List (String × VDoc) × Bool :=
  let r := flatGo doc ([], false)
  (r.1, !r.2)
termination_by sizeOf doc + 1

/-- The loop of `flat_vars`: accumulate `(me, has_next_layer)`. -/
def flatGo : List (String × VDoc) → List (String × VDoc) × Bool →
    List (String × VDoc) × Bool
  | [], acc => acc
  | (k, v) :: rest, (me, hnl) =>
    match v with
    | .obj child =>
      let r := flat_vars child
      if r.2 then flatGo rest (sUpsert k (.obj r.1) me, true)
      else flatGo rest (childInsert k r.1 me, true)
    | .num n => flatGo rest (sUpsert k (.num n) me, hnl)
    | .val s => flatGo rest (sUpsert k (.val s) me, hnl)
termination_by l _ => sizeOf l

end

/-- Python `node.startswith("$")`. -/
def startsDollar (s : String) : Bool :=
  match s.data with
  | c :: _ => c = '$'
  | [] => false

/-- Python `node.lstrip("$")`. -/
def lstripDollar (s : String) : String :=
  ⟨s.data.dropWhile (fun c => c = '$')⟩

/-- Python `k.split(".")` at the character level. -/
def splitDotsCh : List Char → List (List Char)
  | [] => [[]]
  | c :: rest =>
    let r := splitDotsCh rest
    if c = '.' then [] :: r
    else
      match r with
      | [] => [[c]]
      | h :: t => (c :: h) :: t

/-- Python `k.split(".")`. -/
def splitDots (s : String) : List String :=
  (splitDotsCh s.data).map (fun cs => ⟨cs⟩)

/-- Python `".".join(parts)`. -/
def joinDots : List String → String
  | [] => ""
  | [s0] => s0
  | s0 :: rest => s0 ++ "." ++ joinDots rest

/-- The `path_type` tokens of `brief_vars` (skip `$parse`; keep `$`-prefixed
tokens, stripped). -/
def briefTypes (tokens : List String) : List String :=
  (tokens.filter (fun t => t ≠ "$parse" && startsDollar t)).map lstripDollar

/-- The `path_name` tokens of `brief_vars` (everything not `$`-prefixed). -/
def briefNames (tokens : List String) : List String :=
  tokens.filter (fun t => !startsDollar t)

/-- `brief_vars(vars_)`: one annotated row per flattened entry that is a
non-empty dict. -/
def brief_vars (vars_ : List (String × VDoc)) : List (List (String × VDoc)) :=
  (flat_vars vars_).1.filterMap (fun e =>
    match e with
    | (k, .obj (e0 :: es)) =>
      some (sUpsert "$key" (.val (.s (joinDots (briefNames (splitDots k)))))
        (sUpsert "$type" (.val (.s (joinDots (briefTypes (splitDots k)))))
          (e0 :: es)))
    | _ => none)

/-- The bare kind name of a scalar kind (the `$type` token it yields). -/
def tagStr : SKind → String
  | .bool => "bool"
  | .int => "int"
  | .float => "float"
  | .str => "str"
  | .null => "none"

/-- No `.` occurs in the string (so dotted keys split back apart). -/
def noDot (s : String) : Prop := '.' ∉ s.data

/-- A benign field name: no dot, and not `$`-prefixed. -/
def nameOK (s : String) : Prop := noDot s ∧ startsDollar s = false

instance (s : String) : Decidable (noDot s) := by
  unfold noDot
  infer_instance

instance (s : String) : Decidable (nameOK s) := by
  unfold nameOK
  infer_instance

mutual

/-- Shape invariant of accumulator trees as the program builds them:
children keyed uniquely by kind-tag, fields keyed uniquely by name, every
field holding at least one child; field names restricted to benign ones. -/
def ShapeOK : Parse → Prop
  | .value _ _ _ => True
  | .list _ cs => ((cs.map get_type).Nodup ∧ ShapeList cs)
  | .dict _ fs => ((fs.map KeyValueParse.lhs).Nodup ∧ ShapeFields fs)
termination_by p => sizeOf p

/-- `ShapeOK` on every child. -/
def ShapeList : List Parse → Prop
  | [] => True
  | p :: rest => ShapeOK p ∧ ShapeList rest
termination_by l => sizeOf l

/-- `ShapeOK` on every field. -/
def ShapeFields : List KeyValueParse → Prop
  | [] => True
  | .mk nm _ kids :: rest =>
    nameOK nm ∧ kids ≠ [] ∧ (kids.map get_type).Nodup ∧ ShapeList kids ∧
      ShapeFields rest
termination_by l => sizeOf l

end

/-- Prefix every key with `k + "."`. -/
def prefixEntries (k : String) (l : List (String × VDoc)) :
    List (String × VDoc) :=
  l.map (fun e => (k ++ "." ++ e.1, e.2))

mutual

/-- Closed form of `flat_vars (varsEntries p)` (first component) for
shape-correct trees. -/
def flatChar : Parse → List (String × VDoc)
  | .value _ m v =>
    [("$count", .num m.count), ("$count_falsy", .num m.count_falsy),
      ("$parse", .val v)]
  | .list m cs =>
    (match cs with
     | [] => [("$parse", VDoc.obj [])]
     | c :: cs2 => prefixEntries "$parse" (childrenFlat (c :: cs2))) ++
      [("$count", .num m.count), ("$count_falsy", .num m.count_falsy)]
  | .dict m fs =>
    [("$count", .num m.count), ("$count_falsy", .num m.count_falsy)] ++
      (match fs with
       | [] => [("$parse", VDoc.obj [])]
       | kv :: fs2 => prefixEntries "$parse" (fieldsFlat (kv :: fs2)))
termination_by p => sizeOf p

/-- The flattened entries one child contributes to its parent's map: a
final `vars()` blob kept whole for a scalar child, dotted entries
otherwise. -/
def childContrib : Parse → List (String × VDoc)
  | .value k m v =>
    [(get_type (.value k m v), VDoc.obj (flatChar (.value k m v)))]
  | .list m2 cs2 =>
    prefixEntries (get_type (.list m2 cs2)) (flatChar (.list m2 cs2))
  | .dict m2 fs2 =>
    prefixEntries (get_type (.dict m2 fs2)) (flatChar (.dict m2 fs2))
termination_by p => sizeOf p + 1

/-- Closed form of flattening a children map. -/
def childrenFlat : List Parse → List (String × VDoc)
  | [] => []
  | p :: rest => childContrib p ++ childrenFlat rest
termination_by l => sizeOf l
decreasing_by
  all_goals simp_wf
  all_goals first
    | omega
    | (have h := parse_list_sizeOf_pos rest; omega)

/-- Closed form of flattening a fields map. -/
def fieldsFlat : List KeyValueParse → List (String × VDoc)
  | [] => []
  | kv :: rest => prefixEntries kv.lhs (kvFlat kv) ++ fieldsFlat rest
termination_by l => sizeOf l

/-- Closed form of flattening one `KeyValueParse.vars()`. -/
def kvFlat : KeyValueParse → List (String × VDoc)
  | .mk _ m kids =>
    [("$count", .num m.count), ("$count_falsy", .num m.count_falsy)] ++
      (match kids with
       | [] => [("$parse", VDoc.obj [])]
       | c :: kids2 => prefixEntries "$parse" (childrenFlat (c :: kids2)))
termination_by kv => sizeOf kv

end

mutual

/-- The `(field-path, kind-path)` records of the scalar leaves reachable
under a children map, in report order: the claim's "(field-path, kind)
leaves". -/
def recsChildren : List Parse → List (List String × List String)
  | [] => []
  | p :: rest => recsNode p ++ recsChildren rest
termination_by l => sizeOf l

/-- Leaf records contributed by one child node (its own kind-tag included
in the kind-path). -/
def recsNode : Parse → List (List String × List String)
  | .value k _ _ => [([], [tagStr k])]
  | .list _ cs => (recsChildren cs).map (fun r => (r.1, "list" :: r.2))
  | .dict _ fs => (recsFields fs).map (fun r => (r.1, "dict" :: r.2))
termination_by p => sizeOf p

/-- Leaf records contributed by a fields map (field name prepended to the
field path). -/
def recsFields : List KeyValueParse → List (List String × List String)
  | [] => []
  | .mk nm _ kids :: rest =>
    (recsChildren kids).map (fun r => (nm :: r.1, r.2)) ++ recsFields rest
termination_by l => sizeOf l

end

mutual

/-- The dotted-key token lists of the leaf rows below one node's `vars()`
(each with its leaf node), in report order. -/
def ltFlat : Parse → List (List String × Parse)
  | .value _ _ _ => []
  | .list _ cs => (ltChildren cs).map (fun r => ("$parse" :: r.1, r.2))
  | .dict _ fs => (ltFields fs).map (fun r => ("$parse" :: r.1, r.2))
termination_by p => sizeOf p

/-- Token lists contributed by one child. -/
def ltContrib : Parse → List (List String × Parse)
  | .value k m v => [([get_type (.value k m v)], Parse.value k m v)]
  | .list m2 cs2 =>
    (ltFlat (.list m2 cs2)).map
      (fun r => (get_type (.list m2 cs2) :: r.1, r.2))
  | .dict m2 fs2 =>
    (ltFlat (.dict m2 fs2)).map
      (fun r => (get_type (.dict m2 fs2) :: r.1, r.2))
termination_by p => sizeOf p + 1

/-- Token lists contributed by a children map. -/
def ltChildren : List Parse → List (List String × Parse)
  | [] => []
  | p :: rest => ltContrib p ++ ltChildren rest
termination_by l => sizeOf l
decreasing_by
  all_goals simp_wf
  all_goals first
    | omega
    | (have h := parse_list_sizeOf_pos rest; omega)

/-- Token lists contributed by a fields map (`name.$parse.<child>`). -/
def ltFields : List KeyValueParse → List (List String × Parse)
  | [] => []
  | .mk nm _ kids :: rest =>
    (ltChildren kids).map (fun r => (nm :: "$parse" :: r.1, r.2)) ++ ltFields rest
termination_by l => sizeOf l

end

theorem string_data_inj {s1 s2 : String} (h : s1.data = s2.data) : s1 = s2 := by
  cases s1
  cases s2
  simp only at h
  rw [h]

theorem splitDotsCh_ne_nil (l : List Char) : splitDotsCh l ≠ [] := by
  induction l with
  | nil => simp [splitDotsCh]
  | cons c rest ih =>
    simp only [splitDotsCh]
    by_cases h : c = '.'
    · simp [h]
    · simp only [h, if_false]
      cases hr : splitDotsCh rest with
      | nil => exact absurd hr ih
      | cons a t => simp

theorem splitDotsCh_nodot (l : List Char) (h : '.' ∉ l) : splitDotsCh l = [l] := by
  induction l with
  | nil => rfl
  | cons c rest ih =>
    have hc : ¬c = '.' := fun hc => h (by simp [hc])
    have hrest : '.' ∉ rest := fun hr => h (by simp [hr])
    simp only [splitDotsCh, hc, if_false, ih hrest]

theorem splitDotsCh_append (a b : List Char) (ha : '.' ∉ a) :
    splitDotsCh (a ++ '.' :: b) = a :: splitDotsCh b := by
  induction a with
  | nil => simp [splitDotsCh]
  | cons c a2 ih =>
    have hc : ¬c = '.' := fun hc => ha (by simp [hc])
    have ha2 : '.' ∉ a2 := fun hr => ha (by simp [hr])
    show splitDotsCh (c :: (a2 ++ '.' :: b)) = (c :: a2) :: splitDotsCh b
    simp only [splitDotsCh, hc, if_false]
    rw [ih ha2]

theorem string_mk_data (s : String) : String.mk s.data = s := by
  cases s
  rfl

theorem splitDots_nodot (s : String) (h : noDot s) : splitDots s = [s] := by
  simp only [splitDots, splitDotsCh_nodot s.data h, List.map_cons, List.map_nil,
    string_mk_data]

theorem data_append3 (t k : String) :
    (t ++ "." ++ k).data = t.data ++ '.' :: k.data := by
  have h1 : (t ++ "." ++ k).data = t.data ++ ".".data ++ k.data := by
    simp [String.data_append]
  rw [h1]
  have h2 : ".".data = ['.'] := rfl
  rw [h2]
  simp

theorem splitDots_append (t k : String) (h : noDot t) :
    splitDots (t ++ "." ++ k) = t :: splitDots k := by
  simp only [splitDots, data_append3, splitDotsCh_append t.data k.data h,
    List.map_cons, string_mk_data]

theorem joinDots_cons (t : String) (ts : List String) (h : ts ≠ []) :
    joinDots (t :: ts) = t ++ "." ++ joinDots ts := by
  cases ts with
  | nil => exact absurd rfl h
  | cons a l => rfl

theorem splitDots_joinDots (ts : List String) (hne : ts ≠ [])
    (h : ∀ t ∈ ts, noDot t) : splitDots (joinDots ts) = ts := by
  induction ts with
  | nil => exact absurd rfl hne
  | cons t rest ih =>
    cases rest with
    | nil =>
      show splitDots (joinDots [t]) = [t]
      exact splitDots_nodot t (h t (by simp))
    | cons a l =>
      rw [joinDots_cons t (a :: l) (by simp),
        splitDots_append _ _ (h t (by simp)),
        ih (by simp) (fun x hx => h x (by simp [hx]))]

/-- The first dotted token of a key. -/
def headTok (s : String) : Option String := (splitDots s).head?

theorem headTok_nodot {s : String} (h : noDot s) : headTok s = some s := by
  simp [headTok, splitDots_nodot s h]

theorem headTok_append {t : String} (k : String) (h : noDot t) :
    headTok (t ++ "." ++ k) = some t := by
  simp [headTok, splitDots_append t k h]

theorem append_dot_cancel {t k1 k2 : String}
    (h : t ++ "." ++ k1 = t ++ "." ++ k2) : k1 = k2 := by
  have hd := congrArg String.data h
  rw [data_append3, data_append3] at hd
  have := List.append_cancel_left hd
  exact string_data_inj (by injection this)

/-- Keys of an entry list. -/
def keysOf (l : List (String × VDoc)) : List String := l.map Prod.fst

/-- Inserting a fresh key appends. -/
theorem sUpsert_fresh {k : String} {v : VDoc} {me : List (String × VDoc)}
    (h : ∀ e ∈ me, e.1 ≠ k) : sUpsert k v me = me ++ [(k, v)] := by
  induction me with
  | nil => rfl
  | cons e rest ih =>
    have he : e.1 ≠ k := h e (by simp)
    cases e with
    | mk k' v' =>
      simp only [sUpsert, if_neg he, List.cons_append]
      rw [ih (fun e2 he2 => h e2 (by simp [he2]))]

/-- Inserting a run of fresh, pairwise-distinct dotted keys appends. -/
theorem childInsert_fresh (k : String) (c : List (String × VDoc)) :
    ∀ me : List (String × VDoc),
      ((c.map (fun e => k ++ "." ++ e.1)).Nodup) →
      (∀ e ∈ c, ∀ e2 ∈ me, e2.1 ≠ k ++ "." ++ e.1) →
      childInsert k c me = me ++ prefixEntries k c := by
  induction c with
  | nil => intro me _ _; simp [childInsert, prefixEntries]
  | cons e0 c2 ih =>
    intro me hnd hfresh
    cases e0 with
    | mk ck cv =>
      simp only [childInsert]
      rw [sUpsert_fresh (fun e2 he2 => hfresh (ck, cv) (by simp) e2 he2)]
      simp only [List.map_cons, List.nodup_cons] at hnd
      rw [ih (me ++ [(k ++ "." ++ ck, cv)]) hnd.2 ?_]
      · simp [prefixEntries]
      · intro e he e2 he2
        rcases List.mem_append.mp he2 with h2 | h2
        · exact hfresh e (by simp [he]) e2 h2
        · simp only [List.mem_singleton] at h2
          rcases h2 with rfl
          simp only
          intro hcon
          exact hnd.1 (by rw [hcon]; exact List.mem_map_of_mem _ he)

/-- With distinct kind-tags, the children-map builder is a plain map. -/
theorem childEntries_eq_map (cs : List Parse) :
    ∀ acc : List (String × VDoc),
      ((cs.map get_type).Nodup) →
      (∀ p ∈ cs, ∀ e ∈ acc, e.1 ≠ get_type p) →
      childEntries cs acc =
        acc ++ cs.map (fun p => (get_type p, VDoc.obj (varsEntries p))) := by
  induction cs with
  | nil => intro acc _ _; simp [childEntries]
  | cons p rest ih =>
    intro acc hnd hfresh
    simp only [childEntries]
    rw [sUpsert_fresh (fun e he => hfresh p (by simp) e he)]
    simp only [List.map_cons, List.nodup_cons] at hnd
    rw [ih (acc ++ [(get_type p, VDoc.obj (varsEntries p))]) hnd.2 ?_]
    · simp
    · intro q hq e2 he2
      rcases List.mem_append.mp he2 with h2 | h2
      · exact hfresh q (by simp [hq]) e2 h2
      · simp only [List.mem_singleton] at h2
        rcases h2 with rfl
        simp only
        intro hcon
        exact hnd.1 (by rw [hcon]; exact List.mem_map_of_mem _ hq)

/-- With distinct field names, the fields-map builder is a plain map. -/
theorem kvEntries_eq_map (fs : List KeyValueParse) :
    ∀ acc : List (String × VDoc),
      ((fs.map KeyValueParse.lhs).Nodup) →
      (∀ kv ∈ fs, ∀ e ∈ acc, e.1 ≠ kv.lhs) →
      kvEntries fs acc =
        acc ++ fs.map (fun kv => (kv.lhs, VDoc.obj (kvVarsEntries kv))) := by
  induction fs with
  | nil => intro acc _ _; simp [kvEntries]
  | cons kv rest ih =>
    intro acc hnd hfresh
    simp only [kvEntries]
    rw [sUpsert_fresh (fun e he => hfresh kv (by simp) e he)]
    simp only [List.map_cons, List.nodup_cons] at hnd
    rw [ih (acc ++ [(kv.lhs, VDoc.obj (kvVarsEntries kv))]) hnd.2 ?_]
    · simp
    · intro q hq e2 he2
      rcases List.mem_append.mp he2 with h2 | h2
      · exact hfresh q (by simp [hq]) e2 h2
      · simp only [List.mem_singleton] at h2
        rcases h2 with rfl
        simp only
        intro hcon
        exact hnd.1 (by rw [hcon]; exact List.mem_map_of_mem _ hq)

/-- Kind-tag strings contain no dot. -/
theorem noDot_get_type (p : Parse) : noDot (get_type p) := by
  cases p with
  | value k m v => cases k <;> (simp only [get_type]; decide)
  | list m cs => simp only [get_type]; decide
  | dict m fs => simp only [get_type]; decide

/-- Is this node a `ValueParse`?  (Its `vars()` blob is a final layer.) -/
def isValueNode : Parse → Bool
  | .value _ _ _ => true
  | .list _ _ => false
  | .dict _ _ => false

theorem keysOf_prefixed (t : String) (l : List (String × VDoc)) :
    keysOf (prefixEntries t l) = (keysOf l).map (fun k => t ++ "." ++ k) := by
  simp [keysOf, prefixEntries, List.map_map]

theorem prefixEntries_keys_nodup (t : String) {l : List (String × VDoc)}
    (h : (keysOf l).Nodup) : (keysOf (prefixEntries t l)).Nodup := by
  rw [keysOf_prefixed]
  exact h.map (fun k1 k2 hk => append_dot_cancel hk)

theorem headTok_prefixed {t : String} (h : noDot t) {e : String × VDoc}
    {l : List (String × VDoc)} (he : e ∈ prefixEntries t l) :
    headTok e.1 = some t := by
  simp only [prefixEntries, List.mem_map] at he
  obtain ⟨e0, -, rfl⟩ := he
  exact headTok_append e0.1 h

theorem noDot_parse_tok : noDot "$parse" := by decide

theorem noDot_count_tok : noDot "$count" := by decide

theorem noDot_falsy_tok : noDot "$count_falsy" := by decide

/-- Two literal metadata keys. -/
theorem count_keys_nodup :
    (["$count", "$count_falsy"] : List String).Nodup := by decide

/-- A `$parse`-dotted key differs from the metadata keys. -/
theorem parse_key_ne_counts {k s : String}
    (hs : s = "$count" ∨ s = "$count_falsy") :
    "$parse" ++ "." ++ k ≠ s := by
  intro hcon
  have hh := headTok_append k noDot_parse_tok
  rcases hs with rfl | rfl
  · rw [hcon, headTok_nodot noDot_count_tok] at hh
    simp at hh
  · rw [hcon, headTok_nodot noDot_falsy_tok] at hh
    simp at hh

/-- Keys dotted under `$parse` never collide with the metadata keys. -/
theorem parse_prefixed_disjoint_counts {l : List (String × VDoc)} {a : String}
    (ha : a ∈ List.map Prod.fst (prefixEntries "$parse" l))
    (hb : a = "$count" ∨ a = "$count_falsy") : False := by
  simp only [prefixEntries, List.map_map, List.mem_map, Function.comp] at ha
  obtain ⟨e, -, rfl⟩ := ha
  rcases hb with hb | hb
  · exact parse_key_ne_counts (Or.inl rfl) hb
  · exact parse_key_ne_counts (Or.inr rfl) hb

/-- Keys produced by the closed flatten forms are distinct, and children /
fields contributions are recognizable by their first dotted token. -/
theorem flatNodup : ∀ n : Nat,
    (∀ p : Parse, sizeOf p ≤ n → ShapeOK p → (keysOf (flatChar p)).Nodup) ∧
    (∀ cs : List Parse, sizeOf cs ≤ n → ShapeList cs →
      ((cs.map get_type).Nodup) →
      (keysOf (childrenFlat cs)).Nodup ∧
      (∀ e ∈ childrenFlat cs, ∃ p0 ∈ cs, headTok e.1 = some (get_type p0))) ∧
    (∀ fs : List KeyValueParse, sizeOf fs ≤ n → ShapeFields fs →
      ((fs.map KeyValueParse.lhs).Nodup) →
      (keysOf (fieldsFlat fs)).Nodup ∧
      (∀ e ∈ fieldsFlat fs, ∃ kv ∈ fs, headTok e.1 = some kv.lhs)) ∧
    (∀ nm : String, ∀ mm : Meta, ∀ kids : List Parse,
      sizeOf kids + 1 ≤ n → ShapeList kids → ((kids.map get_type).Nodup) →
      (keysOf (kvFlat (KeyValueParse.mk nm mm kids))).Nodup) := by
  intro n
  induction n using Nat.strong_induction_on with
  | _ n IH =>
  refine ⟨?_, ?_, ?_, ?_⟩
  · intro p hsz hsh
    cases p with
    | value k m v => simp [flatChar, keysOf]
    | list m cs =>
      cases cs with
      | nil => simp [flatChar, keysOf]
      | cons c cs2 =>
        simp only [ShapeOK] at hsh
        obtain ⟨hnd, hshl⟩ := hsh
        have hlt : sizeOf (c :: cs2) < n := by
          have := meta_sizeOf_pos m
          simp only [Parse.list.sizeOf_spec] at hsz
          omega
        obtain ⟨hknd, -⟩ := (IH _ hlt).2.1 (c :: cs2) le_rfl hshl hnd
        simp only [flatChar, keysOf, List.map_append]
        rw [List.nodup_append]
        refine ⟨prefixEntries_keys_nodup "$parse" hknd, ?_, ?_⟩
        · simp only [List.map_cons, List.map_nil]
          exact count_keys_nodup
        · intro a ha hb
          simp only [List.map_cons, List.map_nil, List.mem_cons,
            List.not_mem_nil, or_false] at hb
          exact parse_prefixed_disjoint_counts ha hb
    | dict m fs =>
      cases fs with
      | nil => simp [flatChar, keysOf]
      | cons kv0 fs2 =>
        simp only [ShapeOK] at hsh
        obtain ⟨hnd, hshf⟩ := hsh
        have hlt : sizeOf (kv0 :: fs2) < n := by
          have := meta_sizeOf_pos m
          simp only [Parse.dict.sizeOf_spec] at hsz
          omega
        obtain ⟨hknd, -⟩ := (IH _ hlt).2.2.1 (kv0 :: fs2) le_rfl hshf hnd
        simp only [flatChar, keysOf, List.map_append]
        rw [List.nodup_append]
        refine ⟨?_, prefixEntries_keys_nodup "$parse" hknd, ?_⟩
        · simp only [List.map_cons, List.map_nil]
          exact count_keys_nodup
        · intro a ha hb
          simp only [List.map_cons, List.map_nil, List.mem_cons,
            List.not_mem_nil, or_false] at ha
          exact parse_prefixed_disjoint_counts hb ha
  · intro cs hsz hsh hnd
    cases cs with
    | nil =>
      exact ⟨by simp [childrenFlat, keysOf], by simp [childrenFlat]⟩
    | cons p rest =>
      simp only [ShapeList] at hsh
      obtain ⟨hshp, hshr⟩ := hsh
      simp only [List.map_cons, List.nodup_cons] at hnd
      have hrlt : sizeOf rest < n := by
        have := parse_sizeOf_pos p
        simp only [List.cons.sizeOf_spec] at hsz
        omega
      obtain ⟨hkr, hhr⟩ := (IH _ hrlt).2.1 rest le_rfl hshr hnd.2
      have hplt : sizeOf p < n := by
        simp only [List.cons.sizeOf_spec] at hsz
        have h2 : 1 ≤ sizeOf rest := by
          cases rest <;> simp_arith
        omega
      have hcnd : (keysOf (childContrib p)).Nodup := by
        cases p with
        | value k m v => simp [childContrib, keysOf]
        | list m2 cs2 =>
          simp only [childContrib]
          exact prefixEntries_keys_nodup _ ((IH _ hplt).1 _ le_rfl hshp)
        | dict m2 fs2 =>
          simp only [childContrib]
          exact prefixEntries_keys_nodup _ ((IH _ hplt).1 _ le_rfl hshp)
      have hch : ∀ e ∈ childContrib p, headTok e.1 = some (get_type p) := by
        cases p with
        | value k m v =>
          intro e he
          simp only [childContrib, List.mem_singleton] at he
          rw [he]
          exact headTok_nodot (noDot_get_type _)
        | list m2 cs2 =>
          intro e he
          simp only [childContrib] at he
          exact headTok_prefixed (noDot_get_type _) he
        | dict m2 fs2 =>
          intro e he
          simp only [childContrib] at he
          exact headTok_prefixed (noDot_get_type _) he
      constructor
      · simp only [childrenFlat, keysOf, List.map_append]
        rw [List.nodup_append]
        refine ⟨hcnd, hkr, ?_⟩
        intro a ha hb
        simp only [keysOf, List.mem_map] at ha hb
        obtain ⟨e, he, rfl⟩ := ha
        obtain ⟨e2, he2, heq⟩ := hb
        obtain ⟨q, hq, hhq⟩ := hhr e2 he2
        have hhe := hch e he
        rw [heq, hhe] at hhq
        have : get_type p = get_type q := by injection hhq
        exact hnd.1 (this ▸ List.mem_map_of_mem get_type hq)
      · intro e he
        simp only [childrenFlat, List.mem_append] at he
        rcases he with he | he
        · exact ⟨p, by simp, hch e he⟩
        · obtain ⟨q, hq, hhq⟩ := hhr e he
          exact ⟨q, by simp [hq], hhq⟩
  · intro fs hsz hsh hnd
    cases fs with
    | nil => exact ⟨by simp [fieldsFlat, keysOf], by simp [fieldsFlat]⟩
    | cons kv0 rest =>
      cases kv0 with
      | mk nm mm kids =>
        simp only [ShapeFields] at hsh
        obtain ⟨hnm, -, hknd, hshk, hshr⟩ := hsh
        simp only [List.map_cons, List.nodup_cons] at hnd
        have hrlt : sizeOf rest < n := by
          have := kv_sizeOf_pos (KeyValueParse.mk nm mm kids)
          simp only [List.cons.sizeOf_spec] at hsz
          omega
        obtain ⟨hkr, hhr⟩ := (IH _ hrlt).2.2.1 rest le_rfl hshr hnd.2
        have hklt : sizeOf kids + 1 < n := by
          simp only [List.cons.sizeOf_spec, KeyValueParse.mk.sizeOf_spec] at hsz
          have := meta_sizeOf_pos mm
          have := parse_list_sizeOf_pos kids
          have h3 : 1 ≤ sizeOf rest := by cases rest <;> simp_arith
          omega
        have hkvnd : (keysOf (kvFlat (KeyValueParse.mk nm mm kids))).Nodup :=
          (IH _ hklt).2.2.2 nm mm kids le_rfl hshk hknd
        constructor
        · simp only [fieldsFlat, keysOf, List.map_append]
          rw [List.nodup_append]
          refine ⟨prefixEntries_keys_nodup nm hkvnd, hkr, ?_⟩
          intro a ha hb
          simp only [keysOf, List.mem_map] at ha hb
          obtain ⟨e, he, rfl⟩ := ha
          obtain ⟨e2, he2, heq⟩ := hb
          obtain ⟨q, hq, hhq⟩ := hhr e2 he2
          have hhe : headTok e.1 = some nm := headTok_prefixed hnm.1 he
          rw [heq, hhe] at hhq
          have : nm = q.lhs := by injection hhq
          exact hnd.1 (by
            show KeyValueParse.lhs (KeyValueParse.mk nm mm kids) ∈ _
            simp only [KeyValueParse.lhs]
            rw [this]
            exact List.mem_map_of_mem KeyValueParse.lhs hq)
        · intro e he
          simp only [fieldsFlat, List.mem_append] at he
          rcases he with he | he
          · refine ⟨KeyValueParse.mk nm mm kids, by simp, ?_⟩
            simp only [KeyValueParse.lhs]
            exact headTok_prefixed hnm.1 he
          · obtain ⟨q, hq, hhq⟩ := hhr e he
            exact ⟨q, by simp [hq], hhq⟩
  · intro nm mm kids hsz hshk hknd
    cases kids with
    | nil => simp [kvFlat, keysOf]
    | cons c kids2 =>
      have hlt : sizeOf (c :: kids2) < n := by omega
      obtain ⟨hknd2, -⟩ := (IH _ hlt).2.1 (c :: kids2) le_rfl hshk hknd
      simp only [kvFlat, keysOf, List.map_append]
      rw [List.nodup_append]
      refine ⟨?_, prefixEntries_keys_nodup "$parse" hknd2, ?_⟩
      · simp only [List.map_cons, List.map_nil]
        exact count_keys_nodup
      · intro a ha hb
        simp only [List.map_cons, List.map_nil, List.mem_cons,
          List.not_mem_nil, or_false] at ha
        exact parse_prefixed_disjoint_counts hb ha

theorem flatGo_append (a b : List (String × VDoc))
    (acc : List (String × VDoc) × Bool) :
    flatGo (a ++ b) acc = flatGo b (flatGo a acc) := by
  induction a generalizing acc with
  | nil => simp [flatGo]
  | cons e a2 ih =>
    obtain ⟨me, hnl⟩ := acc
    obtain ⟨k, v⟩ := e
    cases v with
    | num x => simp only [List.cons_append, flatGo, ih]
    | val x => simp only [List.cons_append, flatGo, ih]
    | obj child =>
      by_cases h : (flat_vars child).2 <;>
        simp [List.cons_append, flatGo, h, ih]

theorem flatGo_counts (m : Meta) (me : List (String × VDoc)) (hnl : Bool)
    (h1 : ∀ e ∈ me, e.1 ≠ "$count") (h2 : ∀ e ∈ me, e.1 ≠ "$count_falsy") :
    flatGo [("$count", VDoc.num m.count),
        ("$count_falsy", VDoc.num m.count_falsy)] (me, hnl) =
      (me ++ [("$count", VDoc.num m.count),
        ("$count_falsy", VDoc.num m.count_falsy)], hnl) := by
  simp only [flatGo]
  rw [sUpsert_fresh h1, sUpsert_fresh ?_]
  · simp
  · intro e he
    rcases List.mem_append.mp he with h | h
    · exact h2 e h
    · simp only [List.mem_singleton] at h
      rcases h with rfl
      show ("$count" : String) ≠ "$count_falsy"
      decide

theorem childContrib_heads (p : Parse) :
    ∀ e ∈ childContrib p, headTok e.1 = some (get_type p) := by
  cases p with
  | value k m v =>
    intro e he
    simp only [childContrib, List.mem_singleton] at he
    rw [he]
    exact headTok_nodot (noDot_get_type _)
  | list m cs =>
    intro e he
    simp only [childContrib] at he
    exact headTok_prefixed (noDot_get_type _) he
  | dict m fs =>
    intro e he
    simp only [childContrib] at he
    exact headTok_prefixed (noDot_get_type _) he

theorem flatChar_keys_nodup {p : Parse} (h : ShapeOK p) :
    (keysOf (flatChar p)).Nodup :=
  (flatNodup (sizeOf p)).1 p le_rfl h

theorem dotted_keys_nodup (t : String) {l : List (String × VDoc)}
    (h : (keysOf l).Nodup) : (l.map (fun e => t ++ "." ++ e.1)).Nodup := by
  have h2 := prefixEntries_keys_nodup t h
  rw [keysOf_prefixed] at h2
  simpa [keysOf, List.map_map] using h2

theorem prefix_parse_ne_count {l : List (String × VDoc)} :
    ∀ e ∈ prefixEntries "$parse" l, e.1 ≠ "$count" := by
  intro e he
  simp only [prefixEntries, List.mem_map] at he
  obtain ⟨e0, -, rfl⟩ := he
  exact parse_key_ne_counts (Or.inl rfl)

theorem prefix_parse_ne_falsy {l : List (String × VDoc)} :
    ∀ e ∈ prefixEntries "$parse" l, e.1 ≠ "$count_falsy" := by
  intro e he
  simp only [prefixEntries, List.mem_map] at he
  obtain ⟨e0, -, rfl⟩ := he
  exact parse_key_ne_counts (Or.inr rfl)

theorem fresh_of_headTok {me : List (String × VDoc)} {t : String}
    (hme : ∀ e2 ∈ me, headTok e2.1 ≠ some t) (hnd : noDot t) :
    ∀ e2 ∈ me, e2.1 ≠ t := by
  intro e2 he2 hcon
  exact hme e2 he2 (by rw [hcon]; exact headTok_nodot hnd)

theorem fresh_dotted_of_headTok {me : List (String × VDoc)} {t : String}
    (hme : ∀ e2 ∈ me, headTok e2.1 ≠ some t) (hnd : noDot t) (k0 : String) :
    ∀ e2 ∈ me, e2.1 ≠ t ++ "." ++ k0 := by
  intro e2 he2 hcon
  exact hme e2 he2 (by rw [hcon]; exact headTok_append k0 hnd)

theorem counts_ne_parse (m : Meta) :
    ∀ e ∈ [("$count", VDoc.num m.count),
      ("$count_falsy", VDoc.num m.count_falsy)], e.1 ≠ "$parse" := by
  intro e he
  simp only [List.mem_cons, List.mem_singleton, List.not_mem_nil, or_false] at he
  rcases he with rfl | rfl
  · show ("$count" : String) ≠ "$parse"
    decide
  · show ("$count_falsy" : String) ≠ "$parse"
    decide

/-- `flat_vars` on a value node's `vars()` entries: final layer, unchanged. -/
theorem flat_value (k : SKind) (m : Meta) (v : Scalar) :
    flat_vars (varsEntries (Parse.value k m v)) =
      (flatChar (Parse.value k m v), true) := by
  simp only [varsEntries, flat_vars]
  rw [show [("$count", VDoc.num m.count), ("$count_falsy", VDoc.num m.count_falsy),
      ("$parse", VDoc.val v)] =
      [("$count", VDoc.num m.count), ("$count_falsy", VDoc.num m.count_falsy)] ++
      [("$parse", VDoc.val v)] from rfl]
  rw [flatGo_append, flatGo_counts m [] false (by simp) (by simp)]
  simp only [List.nil_append, flatGo]
  rw [sUpsert_fresh (counts_ne_parse m)]
  simp [flatChar]

/-- `flat_vars` of the empty dict. -/
theorem flat_vars_nil : flat_vars [] = ([], true) := by
  simp [flat_vars, flatGo]

/-- One step of `flat_vars` on a dict-valued entry. -/
theorem flatGo_objEntry (k : String) (child : List (String × VDoc))
    (me : List (String × VDoc)) (hnl : Bool) :
    flatGo [(k, VDoc.obj child)] (me, hnl) =
      (if (flat_vars child).2 then (sUpsert k (VDoc.obj (flat_vars child).1) me, true)
       else (childInsert k (flat_vars child).1 me, true)) := by
  by_cases h : (flat_vars child).2 <;> simp [flatGo, h]

/-- One children-map entry flattens to the child's contribution. -/
theorem flatGo_childEntry {p : Parse} {me : List (String × VDoc)} {hnl : Bool}
    (hF1 : flat_vars (varsEntries p) = (flatChar p, isValueNode p))
    (hknd : (keysOf (flatChar p)).Nodup)
    (hme : ∀ e2 ∈ me, headTok e2.1 ≠ some (get_type p)) :
    flatGo [(get_type p, VDoc.obj (varsEntries p))] (me, hnl) =
      (me ++ childContrib p, true) := by
  rw [flatGo_objEntry, hF1]
  cases p with
  | value k mm v =>
    simp only [isValueNode, childContrib, if_true]
    rw [sUpsert_fresh (fresh_of_headTok hme (noDot_get_type _))]
  | list mm cs =>
    simp only [isValueNode, childContrib, Bool.false_eq_true, if_false]
    rw [childInsert_fresh _ _ _ (dotted_keys_nodup _ hknd)
      (fun e _ => fresh_dotted_of_headTok hme (noDot_get_type _) e.1)]
  | dict mm fs =>
    simp only [isValueNode, childContrib, Bool.false_eq_true, if_false]
    rw [childInsert_fresh _ _ _ (dotted_keys_nodup _ hknd)
      (fun e _ => fresh_dotted_of_headTok hme (noDot_get_type _) e.1)]

/-- One fields-map entry flattens to the field's dotted contribution. -/
theorem flatGo_fieldEntry {kv : KeyValueParse} {me : List (String × VDoc)}
    {hnl : Bool}
    (hF4 : flat_vars (kvVarsEntries kv) = (kvFlat kv, false))
    (hknd : (keysOf (kvFlat kv)).Nodup)
    (hnm : noDot kv.lhs)
    (hme : ∀ e2 ∈ me, headTok e2.1 ≠ some kv.lhs) :
    flatGo [(kv.lhs, VDoc.obj (kvVarsEntries kv))] (me, hnl) =
      (me ++ prefixEntries kv.lhs (kvFlat kv), true) := by
  rw [flatGo_objEntry, hF4]
  simp only [Bool.false_eq_true, if_false]
  rw [childInsert_fresh _ _ _ (dotted_keys_nodup _ hknd)
    (fun e _ => fresh_dotted_of_headTok hme hnm e.1)]

/-- The master flatten characterization: on shape-correct trees,
`flat_vars` of `vars()` is the closed form `flatChar`, and a children /
fields map flattens to its closed form with the `has_next_layer` flag set
iff the map is non-empty. -/
theorem flatMaster : ∀ n : Nat,
    (∀ p : Parse, sizeOf p ≤ n → ShapeOK p →
      flat_vars (varsEntries p) = (flatChar p, isValueNode p)) ∧
    (∀ cs : List Parse, sizeOf cs ≤ n → ShapeList cs →
      ((cs.map get_type).Nodup) →
      ∀ me : List (String × VDoc), ∀ hnl : Bool,
        (∀ e2 ∈ me, ∀ p ∈ cs, headTok e2.1 ≠ some (get_type p)) →
        flatGo (cs.map (fun p => (get_type p, VDoc.obj (varsEntries p))))
            (me, hnl) =
          (me ++ childrenFlat cs, hnl || !cs.isEmpty)) ∧
    (∀ fs : List KeyValueParse, sizeOf fs ≤ n → ShapeFields fs →
      ((fs.map KeyValueParse.lhs).Nodup) →
      ∀ me : List (String × VDoc), ∀ hnl : Bool,
        (∀ e2 ∈ me, ∀ kv ∈ fs, headTok e2.1 ≠ some kv.lhs) →
        flatGo (fs.map (fun kv => (kv.lhs, VDoc.obj (kvVarsEntries kv))))
            (me, hnl) =
          (me ++ fieldsFlat fs, hnl || !fs.isEmpty)) ∧
    (∀ nm : String, ∀ mm : Meta, ∀ kids : List Parse,
      sizeOf kids + 1 ≤ n → ShapeList kids → ((kids.map get_type).Nodup) →
      flat_vars (kvVarsEntries (KeyValueParse.mk nm mm kids)) =
        (kvFlat (KeyValueParse.mk nm mm kids), false)) := by
  intro n
  induction n using Nat.strong_induction_on with
  | _ n IH =>
  refine ⟨?_, ?_, ?_, ?_⟩
  · intro p hsz hsh
    cases p with
    | value k m v => exact flat_value k m v
    | list m cs =>
      cases cs with
      | nil =>
        have hce : childEntries ([] : List Parse) [] = [] := by
          simp [childEntries]
        simp only [varsEntries, hce, flat_vars, isValueNode]
        rw [show ("$parse", VDoc.obj ([] : List (String × VDoc))) ::
            [("$count", VDoc.num m.count), ("$count_falsy", VDoc.num m.count_falsy)] =
            [("$parse", VDoc.obj ([] : List (String × VDoc)))] ++
            [("$count", VDoc.num m.count), ("$count_falsy", VDoc.num m.count_falsy)]
            from rfl]
        rw [flatGo_append, flatGo_objEntry, flat_vars_nil]
        simp only [if_true]
        rw [show sUpsert "$parse" (VDoc.obj []) [] = [("$parse", VDoc.obj [])]
          from rfl]
        rw [flatGo_counts m [("$parse", VDoc.obj [])] true
          (by intro e he; simp at he; rw [he]; decide)
          (by intro e he; simp at he; rw [he]; decide)]
        simp [flatChar]
      | cons c cs2 =>
        simp only [ShapeOK] at hsh
        obtain ⟨hnd, hshl⟩ := hsh
        have hlt : sizeOf (c :: cs2) < n := by
          have := meta_sizeOf_pos m
          simp only [Parse.list.sizeOf_spec] at hsz
          omega
        have hcem := childEntries_eq_map (c :: cs2) [] hnd (by simp)
        have hF2 := (IH _ hlt).2.1 (c :: cs2) le_rfl hshl hnd [] false
          (by simp)
        have hfvchild : flat_vars (childEntries (c :: cs2) []) =
            (childrenFlat (c :: cs2), false) := by
          rw [hcem]
          simp only [List.nil_append, flat_vars, hF2]
          simp
        simp only [varsEntries, flat_vars, isValueNode]
        rw [show ("$parse", VDoc.obj (childEntries (c :: cs2) [])) ::
            [("$count", VDoc.num m.count), ("$count_falsy", VDoc.num m.count_falsy)] =
            [("$parse", VDoc.obj (childEntries (c :: cs2) []))] ++
            [("$count", VDoc.num m.count), ("$count_falsy", VDoc.num m.count_falsy)]
            from rfl]
        rw [flatGo_append, flatGo_objEntry, hfvchild]
        simp only [Prod.snd, Prod.fst, Bool.false_eq_true, if_false]
        rw [childInsert_fresh "$parse" (childrenFlat (c :: cs2)) []
          (dotted_keys_nodup "$parse"
            ((flatNodup (sizeOf (c :: cs2))).2.1 (c :: cs2) le_rfl hshl hnd).1)
          (by simp)]
        simp only [List.nil_append]
        rw [flatGo_counts m _ true
          (fun e he => prefix_parse_ne_count e he)
          (fun e he => prefix_parse_ne_falsy e he)]
        simp [flatChar]
    | dict m fs =>
      cases fs with
      | nil =>
        have hce : kvEntries ([] : List KeyValueParse) [] = [] := by
          simp [kvEntries]
        simp only [varsEntries, hce, flat_vars, isValueNode]
        rw [show [("$count", VDoc.num m.count), ("$count_falsy", VDoc.num m.count_falsy),
            ("$parse", VDoc.obj ([] : List (String × VDoc)))] =
            [("$count", VDoc.num m.count), ("$count_falsy", VDoc.num m.count_falsy)] ++
            [("$parse", VDoc.obj ([] : List (String × VDoc)))] from rfl]
        rw [flatGo_append, flatGo_counts m [] false (by simp) (by simp)]
        simp only [List.nil_append]
        rw [flatGo_objEntry, flat_vars_nil]
        simp only [if_true]
        rw [sUpsert_fresh (counts_ne_parse m)]
        simp [flatChar]
      | cons kv0 fs2 =>
        simp only [ShapeOK] at hsh
        obtain ⟨hnd, hshf⟩ := hsh
        have hlt : sizeOf (kv0 :: fs2) < n := by
          have := meta_sizeOf_pos m
          simp only [Parse.dict.sizeOf_spec] at hsz
          omega
        have hcem := kvEntries_eq_map (kv0 :: fs2) [] hnd (by simp)
        have hF3 := (IH _ hlt).2.2.1 (kv0 :: fs2) le_rfl hshf hnd [] false
          (by simp)
        have hfvchild : flat_vars (kvEntries (kv0 :: fs2) []) =
            (fieldsFlat (kv0 :: fs2), false) := by
          rw [hcem]
          simp only [List.nil_append, flat_vars, hF3]
          simp
        simp only [varsEntries, flat_vars, isValueNode]
        rw [show [("$count", VDoc.num m.count), ("$count_falsy", VDoc.num m.count_falsy),
            ("$parse", VDoc.obj (kvEntries (kv0 :: fs2) []))] =
            [("$count", VDoc.num m.count), ("$count_falsy", VDoc.num m.count_falsy)] ++
            [("$parse", VDoc.obj (kvEntries (kv0 :: fs2) []))] from rfl]
        rw [flatGo_append, flatGo_counts m [] false (by simp) (by simp)]
        simp only [List.nil_append]
        rw [flatGo_objEntry, hfvchild]
        simp only [Prod.snd, Prod.fst, Bool.false_eq_true, if_false]
        rw [childInsert_fresh "$parse" (fieldsFlat (kv0 :: fs2)) _
          (dotted_keys_nodup "$parse"
            ((flatNodup (sizeOf (kv0 :: fs2))).2.2.1 (kv0 :: fs2) le_rfl hshf hnd).1)
          (by
            intro e he e2 he2
            simp only [List.mem_cons, List.mem_singleton, List.not_mem_nil,
              or_false] at he2
            rcases he2 with rfl | rfl
            · exact Ne.symm (parse_key_ne_counts (Or.inl rfl))
            · exact Ne.symm (parse_key_ne_counts (Or.inr rfl)))]
        simp [flatChar]
  · intro cs hsz hsh hnd me hnl hme
    cases cs with
    | nil => simp [flatGo, childrenFlat]
    | cons p rest =>
      simp only [ShapeList] at hsh
      obtain ⟨hshp, hshr⟩ := hsh
      simp only [List.map_cons, List.nodup_cons] at hnd
      have hplt : sizeOf p < n := by
        simp only [List.cons.sizeOf_spec] at hsz
        have := parse_list_sizeOf_pos rest
        omega
      have hrlt : sizeOf rest < n := by
        have := parse_sizeOf_pos p
        simp only [List.cons.sizeOf_spec] at hsz
        omega
      have hF1 := (IH _ hplt).1 p le_rfl hshp
      simp only [List.map_cons]
      rw [show (get_type p, VDoc.obj (varsEntries p)) ::
          rest.map (fun p => (get_type p, VDoc.obj (varsEntries p))) =
          [(get_type p, VDoc.obj (varsEntries p))] ++
          rest.map (fun p => (get_type p, VDoc.obj (varsEntries p))) from rfl]
      rw [flatGo_append,
        flatGo_childEntry hF1 (flatChar_keys_nodup hshp)
          (fun e2 he2 => hme e2 he2 p (by simp))]
      rw [(IH _ hrlt).2.1 rest le_rfl hshr hnd.2 (me ++ childContrib p) true ?_]
      · simp [childrenFlat, List.append_assoc]
      · intro e2 he2 q hq
        rcases List.mem_append.mp he2 with h2 | h2
        · exact hme e2 h2 q (by simp [hq])
        · rw [childContrib_heads p e2 h2]
          intro hcon
          have : get_type p = get_type q := by injection hcon
          exact hnd.1 (this ▸ List.mem_map_of_mem get_type hq)
  · intro fs hsz hsh hnd me hnl hme
    cases fs with
    | nil => simp [flatGo, fieldsFlat]
    | cons kv0 rest =>
      cases kv0 with
      | mk nm mm kids =>
        simp only [ShapeFields] at hsh
        obtain ⟨hnm, -, hknd, hshk, hshr⟩ := hsh
        simp only [List.map_cons, List.nodup_cons] at hnd
        have hklt : sizeOf kids + 1 < n := by
          simp only [List.cons.sizeOf_spec, KeyValueParse.mk.sizeOf_spec] at hsz
          have := meta_sizeOf_pos mm
          have h3 : 1 ≤ sizeOf rest := by cases rest <;> simp_arith
          omega
        have hrlt : sizeOf rest < n := by
          have := kv_sizeOf_pos (KeyValueParse.mk nm mm kids)
          simp only [List.cons.sizeOf_spec] at hsz
          omega
        have hF4 := (IH _ hklt).2.2.2 nm mm kids le_rfl hshk hknd
        have hkvnd := (flatNodup (sizeOf kids + 1)).2.2.2 nm mm kids le_rfl hshk hknd
        simp only [List.map_cons]
        rw [show ((KeyValueParse.mk nm mm kids).lhs,
            VDoc.obj (kvVarsEntries (KeyValueParse.mk nm mm kids))) ::
            rest.map (fun kv => (kv.lhs, VDoc.obj (kvVarsEntries kv))) =
            [((KeyValueParse.mk nm mm kids).lhs,
              VDoc.obj (kvVarsEntries (KeyValueParse.mk nm mm kids)))] ++
            rest.map (fun kv => (kv.lhs, VDoc.obj (kvVarsEntries kv))) from rfl]
        rw [flatGo_append,
          flatGo_fieldEntry hF4 hkvnd hnm.1
            (fun e2 he2 => hme e2 he2 (KeyValueParse.mk nm mm kids) (by simp))]
        rw [(IH _ hrlt).2.2.1 rest le_rfl hshr hnd.2
          (me ++ prefixEntries (KeyValueParse.mk nm mm kids).lhs
            (kvFlat (KeyValueParse.mk nm mm kids))) true ?_]
        · simp [fieldsFlat, List.append_assoc, KeyValueParse.lhs]
        · intro e2 he2 q hq
          rcases List.mem_append.mp he2 with h2 | h2
          · exact hme e2 h2 q (by simp [hq])
          · rw [headTok_prefixed hnm.1 h2]
            intro hcon
            have : (KeyValueParse.mk nm mm kids).lhs = q.lhs := by injection hcon
            exact hnd.1 (this ▸ List.mem_map_of_mem KeyValueParse.lhs hq)
  · intro nm mm kids hsz hshk hknd
    cases kids with
    | nil =>
      have hce : childEntries ([] : List Parse) [] = [] := by
        simp [childEntries]
      simp only [kvVarsEntries, hce, flat_vars]
      rw [show [("$count", VDoc.num mm.count), ("$count_falsy", VDoc.num mm.count_falsy),
          ("$parse", VDoc.obj ([] : List (String × VDoc)))] =
          [("$count", VDoc.num mm.count), ("$count_falsy", VDoc.num mm.count_falsy)] ++
          [("$parse", VDoc.obj ([] : List (String × VDoc)))] from rfl]
      rw [flatGo_append, flatGo_counts mm [] false (by simp) (by simp)]
      simp only [List.nil_append]
      rw [flatGo_objEntry, flat_vars_nil]
      simp only [if_true]
      rw [sUpsert_fresh (counts_ne_parse mm)]
      simp [kvFlat]
    | cons c kids2 =>
      have hlt : sizeOf (c :: kids2) < n := by omega
      have hcem := childEntries_eq_map (c :: kids2) [] hknd (by simp)
      have hF2 := (IH _ hlt).2.1 (c :: kids2) le_rfl hshk hknd [] false
        (by simp)
      have hfvchild : flat_vars (childEntries (c :: kids2) []) =
          (childrenFlat (c :: kids2), false) := by
        rw [hcem]
        simp only [List.nil_append, flat_vars, hF2]
        simp
      simp only [kvVarsEntries, flat_vars]
      rw [show [("$count", VDoc.num mm.count), ("$count_falsy", VDoc.num mm.count_falsy),
          ("$parse", VDoc.obj (childEntries (c :: kids2) []))] =
          [("$count", VDoc.num mm.count), ("$count_falsy", VDoc.num mm.count_falsy)] ++
          [("$parse", VDoc.obj (childEntries (c :: kids2) []))] from rfl]
      rw [flatGo_append, flatGo_counts mm [] false (by simp) (by simp)]
      simp only [List.nil_append]
      rw [flatGo_objEntry, hfvchild]
      simp only [Prod.snd, Prod.fst, Bool.false_eq_true, if_false]
      rw [childInsert_fresh "$parse" (childrenFlat (c :: kids2)) _
        (dotted_keys_nodup "$parse"
          ((flatNodup (sizeOf (c :: kids2))).2.1 (c :: kids2) le_rfl hshk hknd).1)
        (by
          intro e he e2 he2
          simp only [List.mem_cons, List.mem_singleton, List.not_mem_nil,
            or_false] at he2
          rcases he2 with rfl | rfl
          · exact Ne.symm (parse_key_ne_counts (Or.inl rfl))
          · exact Ne.symm (parse_key_ne_counts (Or.inr rfl)))]
      simp [kvFlat]

/-- The flattened entries that `brief_vars` keeps: non-empty dict values,
with their keys. -/
def leafRows (l : List (String × VDoc)) : List (String × List (String × VDoc)) :=
  l.filterMap (fun e =>
    match e with
    | (k, .obj (e0 :: es)) => some (k, e0 :: es)
    | _ => none)

theorem leafRows_append (a b : List (String × VDoc)) :
    leafRows (a ++ b) = leafRows a ++ leafRows b := by
  simp [leafRows, List.filterMap_append]

theorem leafRows_counts (m : Meta) :
    leafRows [("$count", VDoc.num m.count),
      ("$count_falsy", VDoc.num m.count_falsy)] = [] := by
  simp [leafRows]

theorem leafRows_empty_obj (k : String) :
    leafRows [(k, VDoc.obj [])] = [] := by
  simp [leafRows]

theorem leafRows_cons_num (k : String) (x : Nat) (l : List (String × VDoc)) :
    leafRows ((k, VDoc.num x) :: l) = leafRows l := by
  simp [leafRows]

theorem leafRows_cons_val (k : String) (x : Scalar) (l : List (String × VDoc)) :
    leafRows ((k, VDoc.val x) :: l) = leafRows l := by
  simp [leafRows]

theorem leafRows_cons_objnil (k : String) (l : List (String × VDoc)) :
    leafRows ((k, VDoc.obj []) :: l) = leafRows l := by
  simp [leafRows]

theorem leafRows_cons_obj (k : String) (e0 : String × VDoc)
    (es : List (String × VDoc)) (l : List (String × VDoc)) :
    leafRows ((k, VDoc.obj (e0 :: es)) :: l) = (k, e0 :: es) :: leafRows l := by
  simp [leafRows]

theorem leafRows_prefixed (t : String) (l : List (String × VDoc)) :
    leafRows (prefixEntries t l) =
      (leafRows l).map (fun r => (t ++ "." ++ r.1, r.2)) := by
  induction l with
  | nil => simp [leafRows, prefixEntries]
  | cons e rest ih =>
    obtain ⟨k, v⟩ := e
    have hpe : prefixEntries t ((k, v) :: rest) =
        (t ++ "." ++ k, v) :: prefixEntries t rest := rfl
    rw [hpe]
    cases v with
    | num x => rw [leafRows_cons_num, leafRows_cons_num, ih]
    | val x => rw [leafRows_cons_val, leafRows_cons_val, ih]
    | obj es =>
      cases es with
      | nil => rw [leafRows_cons_objnil, leafRows_cons_objnil, ih]
      | cons e0 es2 =>
        rw [leafRows_cons_obj, leafRows_cons_obj, ih]
        simp

/-- `brief_vars` is: keep the leaf rows of the flattened report, then
annotate each with `$type` and `$key` computed from its dotted key. -/
theorem brief_vars_eq (vars_ : List (String × VDoc)) :
    brief_vars vars_ = (leafRows (flat_vars vars_).1).map (fun r =>
      sUpsert "$key" (.val (.s (joinDots (briefNames (splitDots r.1)))))
        (sUpsert "$type" (.val (.s (joinDots (briefTypes (splitDots r.1)))))
          r.2)) := by
  rw [brief_vars, leafRows, List.map_filterMap]
  apply List.filterMap_congr
  intro e _
  obtain ⟨k, v⟩ := e
  cases v with
  | num x => rfl
  | val x => rfl
  | obj es => cases es <;> rfl

/-- Tokens of leaf rows are non-empty lists of dot-free tokens. -/
theorem ltToks : ∀ n : Nat,
    (∀ p : Parse, sizeOf p ≤ n → ShapeOK p →
      ∀ r ∈ ltFlat p, r.1 ≠ [] ∧ ∀ t ∈ r.1, noDot t) ∧
    (∀ cs : List Parse, sizeOf cs ≤ n → ShapeList cs →
      ∀ r ∈ ltChildren cs, r.1 ≠ [] ∧ ∀ t ∈ r.1, noDot t) ∧
    (∀ fs : List KeyValueParse, sizeOf fs ≤ n → ShapeFields fs →
      ∀ r ∈ ltFields fs, r.1 ≠ [] ∧ ∀ t ∈ r.1, noDot t) := by
  intro n
  induction n using Nat.strong_induction_on with
  | _ n IH =>
  refine ⟨?_, ?_, ?_⟩
  · intro p hsz hsh r hr
    cases p with
    | value k m v => simp [ltFlat] at hr
    | list m cs =>
      simp only [ltFlat, List.mem_map] at hr
      obtain ⟨r0, hr0, rfl⟩ := hr
      simp only [ShapeOK] at hsh
      have hlt : sizeOf cs < n := by
        have := meta_sizeOf_pos m
        simp only [Parse.list.sizeOf_spec] at hsz
        omega
      obtain ⟨hne, hnd⟩ := (IH _ hlt).2.1 cs le_rfl hsh.2 r0 hr0
      refine ⟨by simp, ?_⟩
      intro t ht
      simp only [List.mem_cons] at ht
      rcases ht with rfl | ht
      · exact noDot_parse_tok
      · exact hnd t ht
    | dict m fs =>
      simp only [ltFlat, List.mem_map] at hr
      obtain ⟨r0, hr0, rfl⟩ := hr
      simp only [ShapeOK] at hsh
      have hlt : sizeOf fs < n := by
        have := meta_sizeOf_pos m
        simp only [Parse.dict.sizeOf_spec] at hsz
        omega
      obtain ⟨hne, hnd⟩ := (IH _ hlt).2.2 fs le_rfl hsh.2 r0 hr0
      refine ⟨by simp, ?_⟩
      intro t ht
      simp only [List.mem_cons] at ht
      rcases ht with rfl | ht
      · exact noDot_parse_tok
      · exact hnd t ht
  · intro cs hsz hsh r hr
    cases cs with
    | nil => simp [ltChildren] at hr
    | cons p rest =>
      simp only [ShapeList] at hsh
      simp only [ltChildren, List.mem_append] at hr
      have hplt : sizeOf p < n := by
        simp only [List.cons.sizeOf_spec] at hsz
        have := parse_list_sizeOf_pos rest
        omega
      have hrlt : sizeOf rest < n := by
        have := parse_sizeOf_pos p
        simp only [List.cons.sizeOf_spec] at hsz
        omega
      rcases hr with hr | hr
      · cases p with
        | value k m v =>
          simp only [ltContrib, List.mem_singleton] at hr
          rw [hr]
          refine ⟨by simp, ?_⟩
          intro t ht
          simp only [List.mem_singleton] at ht
          rw [ht]
          exact noDot_get_type _
        | list m2 cs2 =>
          simp only [ltContrib, List.mem_map] at hr
          obtain ⟨r0, hr0, rfl⟩ := hr
          obtain ⟨hne, hnd⟩ := (IH _ hplt).1 _ le_rfl hsh.1 r0 hr0
          refine ⟨by simp, ?_⟩
          intro t ht
          simp only [List.mem_cons] at ht
          rcases ht with rfl | ht
          · exact noDot_get_type _
          · exact hnd t ht
        | dict m2 fs2 =>
          simp only [ltContrib, List.mem_map] at hr
          obtain ⟨r0, hr0, rfl⟩ := hr
          obtain ⟨hne, hnd⟩ := (IH _ hplt).1 _ le_rfl hsh.1 r0 hr0
          refine ⟨by simp, ?_⟩
          intro t ht
          simp only [List.mem_cons] at ht
          rcases ht with rfl | ht
          · exact noDot_get_type _
          · exact hnd t ht
      · exact (IH _ hrlt).2.1 rest le_rfl hsh.2 r hr
  · intro fs hsz hsh r hr
    cases fs with
    | nil => simp [ltFields] at hr
    | cons kv0 rest =>
      cases kv0 with
      | mk nm mm kids =>
        simp only [ShapeFields] at hsh
        obtain ⟨hnm, -, -, hshk, hshr⟩ := hsh
        simp only [ltFields, List.mem_append] at hr
        have hklt : sizeOf kids < n := by
          simp only [List.cons.sizeOf_spec, KeyValueParse.mk.sizeOf_spec] at hsz
          have := meta_sizeOf_pos mm
          omega
        have hrlt : sizeOf rest < n := by
          have := kv_sizeOf_pos (KeyValueParse.mk nm mm kids)
          simp only [List.cons.sizeOf_spec] at hsz
          omega
        rcases hr with hr | hr
        · simp only [List.mem_map] at hr
          obtain ⟨r0, hr0, rfl⟩ := hr
          obtain ⟨hne, hnd⟩ := (IH _ hklt).2.1 kids le_rfl hshk r0 hr0
          refine ⟨by simp, ?_⟩
          intro t ht
          simp only [List.mem_cons] at ht
          rcases ht with rfl | ht
          · exact hnm.1
          · rcases ht with rfl | ht
            · exact noDot_parse_tok
            · exact hnd t ht
        · exact (IH _ hrlt).2.2 rest le_rfl hshr r hr

theorem flatChar_value_eq (k : SKind) (m : Meta) (v : Scalar) :
    flatChar (Parse.value k m v) = varsEntries (Parse.value k m v) := by
  simp [flatChar, varsEntries]

/-- The leaf rows of the closed flatten forms, with their dotted keys. -/
theorem ltRows : ∀ n : Nat,
    (∀ p : Parse, sizeOf p ≤ n → ShapeOK p →
      leafRows (flatChar p) =
        (ltFlat p).map (fun r => (joinDots r.1, varsEntries r.2))) ∧
    (∀ cs : List Parse, sizeOf cs ≤ n → ShapeList cs →
      leafRows (childrenFlat cs) =
        (ltChildren cs).map (fun r => (joinDots r.1, varsEntries r.2))) ∧
    (∀ fs : List KeyValueParse, sizeOf fs ≤ n → ShapeFields fs →
      leafRows (fieldsFlat fs) =
        (ltFields fs).map (fun r => (joinDots r.1, varsEntries r.2))) ∧
    (∀ nm : String, ∀ mm : Meta, ∀ kids : List Parse,
      sizeOf kids + 1 ≤ n → ShapeList kids →
      leafRows (kvFlat (KeyValueParse.mk nm mm kids)) =
        ((ltChildren kids).map (fun r => ("$parse" :: r.1, r.2))).map
          (fun r => (joinDots r.1, varsEntries r.2))) := by
  intro n
  induction n using Nat.strong_induction_on with
  | _ n IH =>
  refine ⟨?_, ?_, ?_, ?_⟩
  · intro p hsz hsh
    cases p with
    | value k m v =>
      simp [flatChar, leafRows, ltFlat]
    | list m cs =>
      cases cs with
      | nil => simp [flatChar, leafRows, ltFlat, ltChildren]
      | cons c cs2 =>
        simp only [ShapeOK] at hsh
        have hlt : sizeOf (c :: cs2) < n := by
          have := meta_sizeOf_pos m
          simp only [Parse.list.sizeOf_spec] at hsz
          omega
        have hR2 := (IH _ hlt).2.1 (c :: cs2) le_rfl hsh.2
        have hT2 := (ltToks (sizeOf (c :: cs2))).2.1 (c :: cs2) le_rfl hsh.2
        simp only [flatChar]
        rw [leafRows_append, leafRows_counts, List.append_nil,
          leafRows_prefixed, hR2]
        simp only [ltFlat, List.map_map]
        apply List.map_congr_left
        intro r hr
        simp only [Function.comp]
        rw [joinDots_cons _ _ (hT2 r hr).1]
    | dict m fs =>
      cases fs with
      | nil => simp [flatChar, leafRows, ltFlat, ltFields]
      | cons kv0 fs2 =>
        simp only [ShapeOK] at hsh
        have hlt : sizeOf (kv0 :: fs2) < n := by
          have := meta_sizeOf_pos m
          simp only [Parse.dict.sizeOf_spec] at hsz
          omega
        have hR3 := (IH _ hlt).2.2.1 (kv0 :: fs2) le_rfl hsh.2
        have hT3 := (ltToks (sizeOf (kv0 :: fs2))).2.2 (kv0 :: fs2) le_rfl hsh.2
        simp only [flatChar]
        rw [leafRows_append, leafRows_counts, List.nil_append,
          leafRows_prefixed, hR3]
        simp only [ltFlat, List.map_map]
        apply List.map_congr_left
        intro r hr
        simp only [Function.comp]
        rw [joinDots_cons _ _ (hT3 r hr).1]
  · intro cs hsz hsh
    cases cs with
    | nil => simp [childrenFlat, leafRows, ltChildren]
    | cons p rest =>
      simp only [ShapeList] at hsh
      have hplt : sizeOf p < n := by
        simp only [List.cons.sizeOf_spec] at hsz
        have := parse_list_sizeOf_pos rest
        omega
      have hrlt : sizeOf rest < n := by
        have := parse_sizeOf_pos p
        simp only [List.cons.sizeOf_spec] at hsz
        omega
      simp only [childrenFlat, ltChildren]
      rw [leafRows_append, (IH _ hrlt).2.1 rest le_rfl hsh.2, List.map_append]
      congr 1
      cases p with
      | value k m v =>
        simp only [childContrib, ltContrib]
        rw [show flatChar (Parse.value k m v) =
          ("$count", VDoc.num m.count) :: [("$count_falsy", VDoc.num m.count_falsy),
            ("$parse", VDoc.val v)] from by simp [flatChar]]
        rw [leafRows_cons_obj]
        simp only [leafRows, List.filterMap_nil, List.map]
        rw [show joinDots [get_type (Parse.value k m v)] =
          get_type (Parse.value k m v) from rfl]
        rw [← flatChar_value_eq]
        simp [flatChar]
      | list m2 cs2 =>
        simp only [childContrib, ltContrib]
        rw [leafRows_prefixed, (IH _ hplt).1 _ le_rfl hsh.1]
        have hT1 := (ltToks (sizeOf (Parse.list m2 cs2))).1 _ le_rfl hsh.1
        simp only [List.map_map]
        apply List.map_congr_left
        intro r hr
        simp only [Function.comp]
        rw [joinDots_cons _ _ (hT1 r hr).1]
      | dict m2 fs2 =>
        simp only [childContrib, ltContrib]
        rw [leafRows_prefixed, (IH _ hplt).1 _ le_rfl hsh.1]
        have hT1 := (ltToks (sizeOf (Parse.dict m2 fs2))).1 _ le_rfl hsh.1
        simp only [List.map_map]
        apply List.map_congr_left
        intro r hr
        simp only [Function.comp]
        rw [joinDots_cons _ _ (hT1 r hr).1]
  · intro fs hsz hsh
    cases fs with
    | nil => simp [fieldsFlat, leafRows, ltFields]
    | cons kv0 rest =>
      cases kv0 with
      | mk nm mm kids =>
        simp only [ShapeFields] at hsh
        obtain ⟨hnm, -, -, hshk, hshr⟩ := hsh
        have hklt : sizeOf kids + 1 < n := by
          simp only [List.cons.sizeOf_spec, KeyValueParse.mk.sizeOf_spec] at hsz
          have := meta_sizeOf_pos mm
          have h3 : 1 ≤ sizeOf rest := by cases rest <;> simp_arith
          omega
        have hrlt : sizeOf rest < n := by
          have := kv_sizeOf_pos (KeyValueParse.mk nm mm kids)
          simp only [List.cons.sizeOf_spec] at hsz
          omega
        simp only [fieldsFlat, ltFields]
        rw [leafRows_append, (IH _ hrlt).2.2.1 rest le_rfl hshr, List.map_append]
        congr 1
        rw [show (KeyValueParse.mk nm mm kids).lhs = nm from rfl]
        rw [leafRows_prefixed, (IH _ hklt).2.2.2 nm mm kids le_rfl hshk]
        simp only [List.map_map]
        apply List.map_congr_left
        intro r hr
        simp only [Function.comp]
        rw [joinDots_cons nm ("$parse" :: r.1) (by simp)]
  · intro nm mm kids hsz hshk
    cases kids with
    | nil => simp [kvFlat, leafRows, ltChildren]
    | cons c kids2 =>
      have hlt : sizeOf (c :: kids2) < n := by omega
      have hR2 := (IH _ hlt).2.1 (c :: kids2) le_rfl hshk
      have hT2 := (ltToks (sizeOf (c :: kids2))).2.1 (c :: kids2) le_rfl hshk
      simp only [kvFlat]
      rw [leafRows_append, leafRows_counts, List.nil_append,
        leafRows_prefixed, hR2]
      simp only [List.map_map]
      apply List.map_congr_left
      intro r hr
      simp only [Function.comp]
      rw [joinDots_cons _ _ (hT2 r hr).1]

theorem briefNames_cons_dollar {t : String} (ts : List String)
    (h : startsDollar t = true) : briefNames (t :: ts) = briefNames ts := by
  simp [briefNames, List.filter_cons, h]

theorem briefNames_cons_plain {t : String} (ts : List String)
    (h : startsDollar t = false) : briefNames (t :: ts) = t :: briefNames ts := by
  simp [briefNames, List.filter_cons, h]

theorem briefTypes_cons_parse (ts : List String) :
    briefTypes ("$parse" :: ts) = briefTypes ts := by
  simp [briefTypes, List.filter_cons]

theorem briefTypes_cons_tag {t : String} (ts : List String)
    (h1 : t ≠ "$parse") (h2 : startsDollar t = true) :
    briefTypes (t :: ts) = lstripDollar t :: briefTypes ts := by
  simp [briefTypes, List.filter_cons, h1, h2]

theorem briefTypes_cons_plain {t : String} (ts : List String)
    (h : startsDollar t = false) : briefTypes (t :: ts) = briefTypes ts := by
  simp [briefTypes, List.filter_cons, h]

theorem startsDollar_get_type (p : Parse) : startsDollar (get_type p) = true := by
  cases p with
  | value k m v => cases k <;> simp only [get_type] <;> decide
  | list m cs => simp only [get_type]; decide
  | dict m fs => simp only [get_type]; decide

theorem get_type_ne_parse_tok (p : Parse) : get_type p ≠ "$parse" := by
  cases p with
  | value k m v => cases k <;> simp only [get_type] <;> decide
  | list m cs => simp only [get_type]; decide
  | dict m fs => simp only [get_type]; decide

theorem lstrip_get_type_value (k : SKind) (m : Meta) (v : Scalar) :
    lstripDollar (get_type (Parse.value k m v)) = tagStr k := by
  cases k <;> simp only [get_type, tagStr] <;> decide

/-- The leaf records reachable under a root node's `vars()` report (the root
node itself contributes no kind token, matching the flatten of its own
`vars()` dict). -/
def recsTop : Parse → List (List String × List String)
  | .value _ _ _ => []
  | .list _ cs => recsChildren cs
  | .dict _ fs => recsFields fs

/-- Mapping each leaf row's token list to its `$key`/`$type` token pair
yields exactly the leaf records of the tree. -/
theorem ltRecs : ∀ n : Nat,
    (∀ p : Parse, sizeOf p ≤ n → ShapeOK p →
      (ltFlat p).map (fun r => (briefNames r.1, briefTypes r.1)) = recsTop p) ∧
    (∀ p : Parse, sizeOf p ≤ n → ShapeOK p →
      (ltContrib p).map (fun r => (briefNames r.1, briefTypes r.1)) = recsNode p) ∧
    (∀ cs : List Parse, sizeOf cs ≤ n → ShapeList cs →
      (ltChildren cs).map (fun r => (briefNames r.1, briefTypes r.1)) =
        recsChildren cs) ∧
    (∀ fs : List KeyValueParse, sizeOf fs ≤ n → ShapeFields fs →
      (ltFields fs).map (fun r => (briefNames r.1, briefTypes r.1)) =
        recsFields fs) := by
  intro n
  induction n using Nat.strong_induction_on with
  | _ n IH =>
  have hFlat : ∀ p : Parse, sizeOf p ≤ n → ShapeOK p →
      (ltFlat p).map (fun r => (briefNames r.1, briefTypes r.1)) = recsTop p := by
    intro p hsz hsh
    cases p with
    | value k m v => simp [ltFlat, recsTop]
    | list m cs =>
      simp only [ShapeOK] at hsh
      have hlt : sizeOf cs < n := by
        have := meta_sizeOf_pos m
        simp only [Parse.list.sizeOf_spec] at hsz
        omega
      have hR := (IH _ hlt).2.2.1 cs le_rfl hsh.2
      simp only [ltFlat, recsTop, List.map_map, ← hR]
      apply List.map_congr_left
      intro r hr
      simp only [Function.comp]
      rw [briefNames_cons_dollar _ (by decide), briefTypes_cons_parse]
    | dict m fs =>
      simp only [ShapeOK] at hsh
      have hlt : sizeOf fs < n := by
        have := meta_sizeOf_pos m
        simp only [Parse.dict.sizeOf_spec] at hsz
        omega
      have hR := (IH _ hlt).2.2.2 fs le_rfl hsh.2
      simp only [ltFlat, recsTop, List.map_map, ← hR]
      apply List.map_congr_left
      intro r hr
      simp only [Function.comp]
      rw [briefNames_cons_dollar _ (by decide), briefTypes_cons_parse]
  refine ⟨hFlat, ?_, ?_, ?_⟩
  · intro p hsz hsh
    cases p with
    | value k m v =>
      simp only [ltContrib, recsNode, List.map_cons, List.map_nil]
      rw [briefNames_cons_dollar _ (startsDollar_get_type (Parse.value k m v)),
        briefTypes_cons_tag _ (get_type_ne_parse_tok (Parse.value k m v))
          (startsDollar_get_type (Parse.value k m v)),
        lstrip_get_type_value]
      simp [briefNames, briefTypes]
    | list m2 cs2 =>
      have hF := hFlat (Parse.list m2 cs2) hsz hsh
      simp only [ltContrib, recsNode, get_type]
      rw [show recsTop (Parse.list m2 cs2) = recsChildren cs2 from rfl] at hF
      rw [← hF, List.map_map, List.map_map]
      apply List.map_congr_left
      intro r hr
      simp only [Function.comp]
      rw [briefNames_cons_dollar _ (by decide),
        briefTypes_cons_tag _ (by decide) (by decide)]
      rw [show lstripDollar "$list" = "list" from by decide]
    | dict m2 fs2 =>
      have hF := hFlat (Parse.dict m2 fs2) hsz hsh
      simp only [ltContrib, recsNode, get_type]
      rw [show recsTop (Parse.dict m2 fs2) = recsFields fs2 from rfl] at hF
      rw [← hF, List.map_map, List.map_map]
      apply List.map_congr_left
      intro r hr
      simp only [Function.comp]
      rw [briefNames_cons_dollar _ (by decide),
        briefTypes_cons_tag _ (by decide) (by decide)]
      rw [show lstripDollar "$dict" = "dict" from by decide]
  · intro cs hsz hsh
    cases cs with
    | nil => simp [ltChildren, recsChildren]
    | cons p rest =>
      simp only [ShapeList] at hsh
      have hplt : sizeOf p < n := by
        simp only [List.cons.sizeOf_spec] at hsz
        have := parse_list_sizeOf_pos rest
        omega
      have hrlt : sizeOf rest < n := by
        have := parse_sizeOf_pos p
        simp only [List.cons.sizeOf_spec] at hsz
        omega
      simp only [ltChildren, recsChildren, List.map_append]
      rw [(IH _ hplt).2.1 p le_rfl hsh.1, (IH _ hrlt).2.2.1 rest le_rfl hsh.2]
  · intro fs hsz hsh
    cases fs with
    | nil => simp [ltFields, recsFields]
    | cons kv0 rest =>
      cases kv0 with
      | mk nm mm kids =>
        simp only [ShapeFields] at hsh
        obtain ⟨hnm, -, -, hshk, hshr⟩ := hsh
        have hklt : sizeOf kids < n := by
          simp only [List.cons.sizeOf_spec, KeyValueParse.mk.sizeOf_spec] at hsz
          have := meta_sizeOf_pos mm
          omega
        have hrlt : sizeOf rest < n := by
          have := kv_sizeOf_pos (KeyValueParse.mk nm mm kids)
          simp only [List.cons.sizeOf_spec] at hsz
          omega
        simp only [ltFields, recsFields, List.map_append]
        rw [(IH _ hrlt).2.2.2 rest le_rfl hshr]
        congr 1
        rw [← (IH _ hklt).2.2.1 kids le_rfl hshk, List.map_map, List.map_map]
        apply List.map_congr_left
        intro r hr
        simp only [Function.comp]
        rw [briefNames_cons_plain _ hnm.2, briefTypes_cons_plain _ hnm.2,
          briefNames_cons_dollar _ (by decide), briefTypes_cons_parse]

/-- `ret.get(key)` on a serialized row (first match wins, as in a dict). -/
def rowGet (k : String) (row : List (String × VDoc)) : Option VDoc :=
  (row.find? (fun e => e.1 == k)).map Prod.snd

theorem rowGet_cons_ne {k : String} {e : String × VDoc}
    (l : List (String × VDoc)) (h : (e.1 == k) = false) :
    rowGet k (e :: l) = rowGet k l := by
  simp [rowGet, List.find?_cons, h]

theorem rowGet_sUpsert_self (k : String) (v : VDoc)
    (l : List (String × VDoc)) : rowGet k (sUpsert k v l) = some v := by
  induction l with
  | nil => simp [sUpsert, rowGet, List.find?_cons]
  | cons e rest ih =>
    obtain ⟨k2, v2⟩ := e
    by_cases h : k2 = k
    · subst h
      simp [sUpsert, rowGet, List.find?_cons]
    · simp only [sUpsert, if_neg h]
      rw [rowGet_cons_ne _ (by simpa using h)]
      exact ih

theorem rowGet_sUpsert_ne {k2 k : String} (h : k2 ≠ k) (v : VDoc)
    (l : List (String × VDoc)) : rowGet k (sUpsert k2 v l) = rowGet k l := by
  induction l with
  | nil =>
    simp [sUpsert, rowGet, List.find?_cons, show (k2 == k) = false by simpa using h]
  | cons e rest ih =>
    obtain ⟨k3, v3⟩ := e
    by_cases h3 : k3 = k2
    · subst h3
      have hs : sUpsert k3 v ((k3, v3) :: rest) = (k3, v) :: rest := by
        simp [sUpsert]
      rw [hs, rowGet_cons_ne _ (by simpa using h),
        rowGet_cons_ne _ (by simpa using h)]
    · simp only [sUpsert, if_neg h3]
      by_cases hk : k3 = k
      · subst hk
        simp [rowGet, List.find?_cons]
      · rw [rowGet_cons_ne _ (by simpa using hk),
          rowGet_cons_ne _ (by simpa using hk)]
        exact ih

/-- The kind token a node contributes to a `$type` path. -/
def tagHead : Parse → String
  | .value k _ _ => tagStr k
  | .list _ _ => "list"
  | .dict _ _ => "dict"

theorem tagHead_eq (p : Parse) : tagHead p = lstripDollar (get_type p) := by
  cases p with
  | value k m v =>
    rw [lstrip_get_type_value]
    rfl
  | list m cs => simp only [tagHead, get_type]; decide
  | dict m fs => simp only [tagHead, get_type]; decide

theorem get_type_mem (p : Parse) :
    get_type p ∈ ["$bool", "$int", "$float", "$str", "$none", "$list", "$dict"] := by
  cases p with
  | value k m v => cases k <;> simp only [get_type] <;> decide
  | list m cs => simp only [get_type]; decide
  | dict m fs => simp only [get_type]; decide

theorem lstrip_tag_inj :
    ∀ a ∈ ["$bool", "$int", "$float", "$str", "$none", "$list", "$dict"],
    ∀ b ∈ ["$bool", "$int", "$float", "$str", "$none", "$list", "$dict"],
      lstripDollar a = lstripDollar b → a = b := by decide

theorem tagHead_inj {p q : Parse} (h : tagHead p = tagHead q) :
    get_type p = get_type q := by
  refine lstrip_tag_inj _ (get_type_mem p) _ (get_type_mem q) ?_
  rw [← tagHead_eq, ← tagHead_eq]
  exact h

theorem tagHead_ne_empty (p : Parse) : tagHead p ≠ "" := by
  cases p with
  | value k m v => cases k <;> simp only [tagHead, tagStr] <;> decide
  | list m cs => simp only [tagHead]; decide
  | dict m fs => simp only [tagHead]; decide

theorem joinDots_ne_empty {t : String} (ts : List String) (h : t ≠ "") :
    joinDots (t :: ts) ≠ "" := by
  cases ts with
  | nil => exact h
  | cons a l =>
    intro he
    have hd := congrArg String.data he
    rw [show joinDots (t :: a :: l) = t ++ "." ++ joinDots (a :: l) from rfl,
      data_append3] at hd
    have : t.data ++ '.' :: (joinDots (a :: l)).data ≠ [] := by
      simp
    exact this hd

theorem recsNode_head {p : Parse} {r : List String × List String}
    (hr : r ∈ recsNode p) : ∃ t, r.2 = tagHead p :: t := by
  cases p with
  | value k m v =>
    simp only [recsNode, List.mem_singleton] at hr
    subst hr
    exact ⟨[], rfl⟩
  | list m cs =>
    simp only [recsNode, List.mem_map] at hr
    obtain ⟨r0, -, rfl⟩ := hr
    exact ⟨r0.2, rfl⟩
  | dict m fs =>
    simp only [recsNode, List.mem_map] at hr
    obtain ⟨r0, -, rfl⟩ := hr
    exact ⟨r0.2, rfl⟩

theorem recsChildren_mem {cs : List Parse} {r : List String × List String}
    (hr : r ∈ recsChildren cs) : ∃ p ∈ cs, r ∈ recsNode p := by
  induction cs with
  | nil => simp [recsChildren] at hr
  | cons p rest ih =>
    simp only [recsChildren, List.mem_append] at hr
    rcases hr with h | h
    · exact ⟨p, by simp, h⟩
    · obtain ⟨q, hq, hrq⟩ := ih h
      exact ⟨q, by simp [hq], hrq⟩

theorem recsFields_types {fs : List KeyValueParse}
    {r : List String × List String} (hr : r ∈ recsFields fs) :
    ∃ q t, r.2 = tagHead q :: t := by
  induction fs with
  | nil => simp [recsFields] at hr
  | cons kv rest ih =>
    cases kv with
    | mk nm mm kids =>
      simp only [recsFields, List.mem_append, List.mem_map] at hr
      rcases hr with ⟨r0, hr0, rfl⟩ | h
      · obtain ⟨q, -, hrq⟩ := recsChildren_mem hr0
        obtain ⟨t, ht⟩ := recsNode_head hrq
        exact ⟨q, t, ht⟩
      · exact ih h

theorem recsFields_heads {fs : List KeyValueParse}
    {r : List String × List String} (hr : r ∈ recsFields fs) :
    ∃ kv ∈ fs, ∃ t, r.1 = KeyValueParse.lhs kv :: t := by
  induction fs with
  | nil => simp [recsFields] at hr
  | cons kv rest ih =>
    cases kv with
    | mk nm mm kids =>
      simp only [recsFields, List.mem_append, List.mem_map] at hr
      rcases hr with ⟨r0, hr0, rfl⟩ | h
      · exact ⟨KeyValueParse.mk nm mm kids, by simp, r0.1, rfl⟩
      · obtain ⟨kv2, hkv2, t, ht⟩ := ih h
        exact ⟨kv2, by simp [hkv2], t, ht⟩

/-- Every well-shaped tree has pairwise-distinct leaf records. -/
theorem recsNodup : ∀ n : Nat,
    (∀ p : Parse, sizeOf p ≤ n → ShapeOK p →
      (recsNode p).Nodup ∧ (recsTop p).Nodup) ∧
    (∀ cs : List Parse, sizeOf cs ≤ n → ShapeList cs →
      (cs.map get_type).Nodup → (recsChildren cs).Nodup) ∧
    (∀ fs : List KeyValueParse, sizeOf fs ≤ n → ShapeFields fs →
      (fs.map KeyValueParse.lhs).Nodup → (recsFields fs).Nodup) := by
  intro n
  induction n using Nat.strong_induction_on with
  | _ n IH =>
  refine ⟨?_, ?_, ?_⟩
  · intro p hsz hsh
    cases p with
    | value k m v =>
      constructor
      · simp [recsNode]
      · simp [recsTop]
    | list m cs =>
      simp only [ShapeOK] at hsh
      have hlt : sizeOf cs < n := by
        have := meta_sizeOf_pos m
        simp only [Parse.list.sizeOf_spec] at hsz
        omega
      have hcs := (IH _ hlt).2.1 cs le_rfl hsh.2 hsh.1
      constructor
      · simp only [recsNode]
        refine hcs.map ?_
        intro a b hab
        simp only [Prod.mk.injEq, List.cons.injEq] at hab
        exact Prod.ext hab.1 hab.2.2
      · exact hcs
    | dict m fs =>
      simp only [ShapeOK] at hsh
      have hlt : sizeOf fs < n := by
        have := meta_sizeOf_pos m
        simp only [Parse.dict.sizeOf_spec] at hsz
        omega
      have hfs := (IH _ hlt).2.2 fs le_rfl hsh.2 hsh.1
      constructor
      · simp only [recsNode]
        refine hfs.map ?_
        intro a b hab
        simp only [Prod.mk.injEq, List.cons.injEq] at hab
        exact Prod.ext hab.1 hab.2.2
      · exact hfs
  · intro cs hsz hsh htags
    cases cs with
    | nil => simp [recsChildren]
    | cons p rest =>
      simp only [ShapeList] at hsh
      simp only [List.map_cons, List.nodup_cons] at htags
      have hplt : sizeOf p < n := by
        simp only [List.cons.sizeOf_spec] at hsz
        have := parse_list_sizeOf_pos rest
        omega
      have hrlt : sizeOf rest < n := by
        have := parse_sizeOf_pos p
        simp only [List.cons.sizeOf_spec] at hsz
        omega
      simp only [recsChildren, List.nodup_append]
      refine ⟨((IH _ hplt).1 p le_rfl hsh.1).1,
        (IH _ hrlt).2.1 rest le_rfl hsh.2 htags.2, ?_⟩
      intro r hrL hrR
      obtain ⟨t, ht⟩ := recsNode_head hrL
      obtain ⟨q, hq, hrq⟩ := recsChildren_mem hrR
      obtain ⟨t2, ht2⟩ := recsNode_head hrq
      have hheads : tagHead p = tagHead q := by
        rw [ht] at ht2
        injection ht2 with h1 h2
      apply htags.1
      rw [tagHead_inj hheads]
      exact List.mem_map_of_mem get_type hq
  · intro fs hsz hsh hlhs
    cases fs with
    | nil => simp [recsFields]
    | cons kv0 rest =>
      cases kv0 with
      | mk nm mm kids =>
        simp only [ShapeFields] at hsh
        obtain ⟨hnm, -, htags, hshk, hshr⟩ := hsh
        simp only [List.map_cons, List.nodup_cons] at hlhs
        have hklt : sizeOf kids < n := by
          simp only [List.cons.sizeOf_spec, KeyValueParse.mk.sizeOf_spec] at hsz
          have := meta_sizeOf_pos mm
          omega
        have hrlt : sizeOf rest < n := by
          have := kv_sizeOf_pos (KeyValueParse.mk nm mm kids)
          simp only [List.cons.sizeOf_spec] at hsz
          omega
        simp only [recsFields, List.nodup_append]
        refine ⟨?_, (IH _ hrlt).2.2 rest le_rfl hshr hlhs.2, ?_⟩
        · refine ((IH _ hklt).2.1 kids le_rfl hshk htags).map ?_
          intro a b hab
          simp only [Prod.mk.injEq, List.cons.injEq] at hab
          exact Prod.ext hab.1.2 hab.2
        · intro r hrL hrR
          simp only [List.mem_map] at hrL
          obtain ⟨r0, -, hre⟩ := hrL
          obtain ⟨kv2, hkv2, t, ht⟩ := recsFields_heads hrR
          have : nm = kv2.lhs := by
            rw [← hre] at ht
            injection ht
          apply hlhs.1
          show nm ∈ List.map KeyValueParse.lhs rest
          rw [this]
          exact List.mem_map_of_mem KeyValueParse.lhs hkv2

/-- Every leaf record's kind path starts with some node's kind token. -/
theorem recsTop_types {p : Parse} {r : List String × List String}
    (hsh : ShapeOK p) (hr : r ∈ recsTop p) : ∃ q t, r.2 = tagHead q :: t := by
  cases p with
  | value k m v => simp [recsTop] at hr
  | list m cs =>
    simp only [recsTop] at hr
    obtain ⟨q, -, hrq⟩ := recsChildren_mem hr
    obtain ⟨t, ht⟩ := recsNode_head hrq
    exact ⟨q, t, ht⟩
  | dict m fs =>
    simp only [recsTop] at hr
    exact recsFields_types hr

theorem forall2_map_map {α β γ : Type} (P : β → γ → Prop) (f : α → β)
    (g : α → γ) (l : List α) (h : ∀ x ∈ l, P (f x) (g x)) :
    List.Forall₂ P (l.map f) (l.map g) := by
  induction l with
  | nil => exact List.Forall₂.nil
  | cons a t ih =>
    exact List.Forall₂.cons (h a (by simp))
      (ih (fun x hx => h x (by simp [hx])))

/-- C8: on a well-shaped merged tree (distinct child kind-tags and field
names per node, field names dot-free and not `$`-prefixed), the brief
report has exactly one row per leaf record of the tree, the leaf records
(field path × kind path) are pairwise distinct, and each row carries `$key`
equal to the dotted field path of its leaf (`""` for a leaf at the root)
and a non-empty `$type` equal to the dotted kind path. -/
theorem claim_C8 (p : Parse) (hsh : ShapeOK p) :
    (brief_vars (varsEntries p)).length = (recsTop p).length ∧
    (recsTop p).Nodup ∧
    List.Forall₂ (fun row r =>
        rowGet "$key" row = some (VDoc.val (Scalar.s (joinDots r.1))) ∧
        rowGet "$type" row = some (VDoc.val (Scalar.s (joinDots r.2))) ∧
        joinDots r.2 ≠ "")
      (brief_vars (varsEntries p)) (recsTop p) := by
  have hfm := (flatMaster (sizeOf p)).1 p le_rfl hsh
  have hlr := (ltRows (sizeOf p)).1 p le_rfl hsh
  have hrecs := (ltRecs (sizeOf p)).1 p le_rfl hsh
  have htoks := (ltToks (sizeOf p)).1 p le_rfl hsh
  have hnodup := ((recsNodup (sizeOf p)).1 p le_rfl hsh).2
  have hbv : brief_vars (varsEntries p) =
      (ltFlat p).map (fun r =>
        sUpsert "$key"
          (.val (.s (joinDots (briefNames (splitDots (joinDots r.1))))))
          (sUpsert "$type"
            (.val (.s (joinDots (briefTypes (splitDots (joinDots r.1))))))
            (varsEntries r.2))) := by
    rw [brief_vars_eq, hfm]
    show (leafRows (flatChar p)).map _ = _
    rw [hlr, List.map_map]
    rfl
  refine ⟨?_, hnodup, ?_⟩
  · rw [hbv, ← hrecs]
    simp
  · rw [hbv, ← hrecs]
    apply forall2_map_map
    intro r hr
    obtain ⟨hne, hnd⟩ := htoks r hr
    have hsj : splitDots (joinDots r.1) = r.1 := splitDots_joinDots _ hne hnd
    refine ⟨?_, ?_, ?_⟩
    · show rowGet "$key" _ = some (VDoc.val (Scalar.s (joinDots (briefNames r.1))))
      rw [hsj]
      exact rowGet_sUpsert_self _ _ _
    · show rowGet "$type" _ = some (VDoc.val (Scalar.s (joinDots (briefTypes r.1))))
      rw [hsj, rowGet_sUpsert_ne (by decide) _ _]
      exact rowGet_sUpsert_self _ _ _
    · show joinDots (briefTypes r.1) ≠ ""
      have hmem : (briefNames r.1, briefTypes r.1) ∈ recsTop p := by
        rw [← hrecs]
        exact List.mem_map_of_mem _ hr
      obtain ⟨q, t, ht⟩ := recsTop_types hsh hmem
      rw [show briefTypes r.1 = tagHead q :: t from ht]
      exact joinDots_ne_empty t (tagHead_ne_empty q)

theorem claim_C8_witness :
    ShapeOK (Parse.list ⟨1, 0⟩ [Parse.value SKind.int ⟨1, 0⟩ (Scalar.i 1)]) ∧
    ((brief_vars (varsEntries
          (Parse.list ⟨1, 0⟩ [Parse.value SKind.int ⟨1, 0⟩ (Scalar.i 1)]))).length =
        (recsTop (Parse.list ⟨1, 0⟩
          [Parse.value SKind.int ⟨1, 0⟩ (Scalar.i 1)])).length ∧
      (recsTop (Parse.list ⟨1, 0⟩
        [Parse.value SKind.int ⟨1, 0⟩ (Scalar.i 1)])).Nodup ∧
      List.Forall₂ (fun row r =>
          rowGet "$key" row = some (VDoc.val (Scalar.s (joinDots r.1))) ∧
          rowGet "$type" row = some (VDoc.val (Scalar.s (joinDots r.2))) ∧
          joinDots r.2 ≠ "")
        (brief_vars (varsEntries
          (Parse.list ⟨1, 0⟩ [Parse.value SKind.int ⟨1, 0⟩ (Scalar.i 1)])))
        (recsTop (Parse.list ⟨1, 0⟩
          [Parse.value SKind.int ⟨1, 0⟩ (Scalar.i 1)]))) :=
  ⟨by simp [ShapeOK, ShapeList, get_type],
    claim_C8 (Parse.list ⟨1, 0⟩ [Parse.value SKind.int ⟨1, 0⟩ (Scalar.i 1)])
      (by simp [ShapeOK, ShapeList, get_type])⟩

/-- The string carried by a row's `$key` entry (`"<none>"` if absent). -/
def keyOfRow (row : List (String × VDoc)) : String :=
  match rowGet "$key" row with
  | some (VDoc.val (Scalar.s s)) => s
  | _ => "<none>"

/-- C8 counterexample: a field whose name is itself `$`-prefixed (`"$a"`)
defeats the `$key` reconstruction — the tree's unique leaf sits at dotted
field path `"$a"`, but the produced row carries `$key = ""`. -/
theorem counterexample_C8 :
    recsTop (Parse.dict ⟨1, 0⟩ [KeyValueParse.mk "$a" ⟨1, 0⟩
        [Parse.value SKind.int ⟨1, 0⟩ (Scalar.i 2)]]) = [(["$a"], ["int"])] ∧
    joinDots ["$a"] = "$a" ∧
    (brief_vars (varsEntries (Parse.dict ⟨1, 0⟩ [KeyValueParse.mk "$a" ⟨1, 0⟩
        [Parse.value SKind.int ⟨1, 0⟩ (Scalar.i 2)]]))).map keyOfRow = [""] ∧
    ("" : String) ≠ "$a" := by
  refine ⟨?_, rfl, ?_, by decide⟩
  · simp [recsTop, recsFields, recsChildren, recsNode, tagStr]
  · simp +decide only [brief_vars, flat_vars, flatGo, varsEntries, childEntries,
      kvEntries, kvVarsEntries, get_type, sUpsert, childInsert,
      KeyValueParse.lhs]

end JsonAnalysis
